import Mathlib

set_option maxRecDepth 10000

/-!
# A verification model of `media/libmediametrics/MediaMetricsItem.cpp`

A shallow embedding of the media-metrics record (`Item`), its property
store (find-or-allocate, swap-remove, filter, filterNot, merge) and both
binary codecs (the byte-string codec and the parcel codec), together with
proofs about them.

Machine strings (`char *` values) are modelled as lists of non-NUL bytes
(`List Nat`); the byte after the end of a string is the implicit NUL
terminator written/consumed by the codecs.  Fixed-width machine integers
are modelled by their bit patterns as `Nat` (an `int32_t` is a `Nat`
below `2 ^ 32`, etc.); `memcpy` of a `w`-byte integer is modelled as the
`w` little-endian base-256 digits.  A decode buffer is a `List Nat`
together with an `oob : Nat → Nat` valuation of the memory beyond the
buffer, so that reads past the end of the buffer are observable.
-/

namespace MediaMetrics

/-- Android `status_t` codes returned by `MediaMetricsItem.cpp`. -/
inductive Status where
  | badValue
  | invalidOperation
  | noMemory
  deriving DecidableEq, Repr

/-- Modelled from the spec: the six property type codes of §4.2 (the
`Type` enum lives in the header `MediaMetricsItem.h`, which is not among
the sources); only their distinctness is relied upon. -/
def kTypeNone : Nat := 0

/-- Modelled from the spec: type code of Int32. -/
def kTypeInt32 : Nat := 1

/-- Modelled from the spec: type code of Int64. -/
def kTypeInt64 : Nat := 2

/-- Modelled from the spec: type code of Double. -/
def kTypeDouble : Nat := 3

/-- Modelled from the spec: type code of CString. -/
def kTypeCString : Nat := 4

/-- Modelled from the spec: type code of Rate. -/
def kTypeRate : Nat := 5

/-- The tagged union held by a property (`mType` plus the union `u`).
A double is represented by its 8-byte pattern, since the codecs only
`memcpy` it. -/
inductive Val where
  | i32 (v : Nat)
  | i64 (v : Nat)
  | dbl (v : Nat)
  | rate (a b : Nat)
  | str (s : List Nat)
  | none
  deriving DecidableEq, Repr

/-- `Item::Prop`: a `(mName, value)` pair. -/
structure MProp where
  name : List Nat
  value : Val
  deriving DecidableEq, Repr

/-- `mediametrics::Item`: key, identity fields, timestamp and the
property store `mProps[0 .. mPropCount)`. -/
structure Item where
  key : List Nat
  pid : Nat
  uid : Nat
  pkgName : List Nat
  pkgVersionCode : Nat
  timestamp : Nat
  props : List MProp
  deriving DecidableEq, Repr

/-- A default-constructed property slot (type `kTypeNone`, empty name). -/
def defaultProp : MProp := ⟨[], .none⟩

/-! ## Property store operations -/

/-- `Item::findPropIndex`: linear scan, first match by exact name
equality; returns the length of the store when the name is absent. -/
def findIdxName : List MProp → List Nat → Nat
  | [], _ => 0
  | p :: ps, n => if p.name = n then 0 else findIdxName ps n + 1

/-- `Item::findPropIndex` on an item. -/
def Item.findPropIndex (it : Item) (n : List Nat) : Nat :=
  findIdxName it.props n

/-- `Item::findProp`: the first property with the given name, if any. -/
def findPropL : List MProp → List Nat → Option MProp
  | [], _ => Option.none
  | p :: ps, n => if p.name = n then some p else findPropL ps n

/-- `Item::findProp` on an item. -/
def Item.findProp (it : Item) (n : List Nat) : Option MProp :=
  findPropL it.props n

/-- `Item::allocateProp(name)` (find-or-allocate): return the index of
the existing property of that name, or append a default-constructed
property carrying the name.  Growth of the backing store always
succeeds in the model. -/
def Item.allocateProp (it : Item) (n : List Nat) : Item × Nat :=
  if it.findPropIndex n < it.props.length then (it, it.findPropIndex n)
  else ({ it with props := it.props ++ [⟨n, .none⟩] }, it.props.length)

/-- Swap-remove at index `i`: overwrite slot `i` with the last entry and
shrink the logical count by one (when `i` is the last entry this just
shrinks).  This is the common effect of `Item::removeProp`,
`Item::filter` and `Item::filterNot`. -/
def removeAt (ps : List MProp) (i : Nat) : List MProp :=
  (ps.set i (ps.getLastD defaultProp)).dropLast

/-- `Item::removeProp`. -/
def Item.removeProp (it : Item) (n : List Nat) : Item × Bool :=
  if it.findPropIndex n < it.props.length then
    ({ it with props := removeAt it.props (it.findPropIndex n) }, true)
  else (it, false)

/-- Loop body of `Item::filter`: for each name of `attrs`, swap-remove
the first property of that name when present, counting removals. -/
def filterGo : List (List Nat) → List MProp → Nat → List MProp × Nat
  | [], ps, z => (ps, z)
  | a :: rest, ps, z =>
    if findIdxName ps a < ps.length then
      filterGo rest (removeAt ps (findIdxName ps a)) (z + 1)
    else filterGo rest ps z

/-- `Item::filter(n, attrs)`. -/
def Item.filter (it : Item) (attrs : List (List Nat)) : Item × Nat :=
  let r := filterGo attrs it.props 0
  ({ it with props := r.1 }, r.2)

/-- Loop of `Item::filterNot`, fuel-indexed: scan index `j` left to
right; entries whose name is in `attrs` are kept, others are
swap-removed (the scan stays at `j` after a removal).  The fuel bounds
`ps.length - j` and is sufficient at every call site. -/
def filterNotGoF (attrs : List (List Nat)) :
    Nat → List MProp → Nat → Nat → List MProp × Nat
  | 0, ps, _, z => (ps, z)
  | fuel + 1, ps, j, z =>
    if h : j < ps.length then
      if (ps.get ⟨j, h⟩).name ∈ attrs then filterNotGoF attrs fuel ps (j + 1) z
      else filterNotGoF attrs fuel (removeAt ps j) j (z + 1)
    else (ps, z)

/-- `Item::filterNot(n, attrs)`. -/
def Item.filterNot (it : Item) (attrs : List (List Nat)) : Item × Nat :=
  let r := filterNotGoF attrs it.props.length it.props 0 0
  ({ it with props := r.1 }, r.2)

/-! ## Merge -/

/-- Loop of `Item::merge` over the incoming store: zero-length names are
skipped; otherwise the first same-named target property is overwritten
in place, and absent names are find-or-allocated and copied. -/
def mergeProps : Item → List MProp → Item
  | t, [] => t
  | t, p :: ps =>
    if p.name = [] then mergeProps t ps
    else if findIdxName t.props p.name < t.props.length then
      mergeProps { t with props := t.props.set (findIdxName t.props p.name) p } ps
    else mergeProps { t with props := t.props ++ [p] } ps

/-- `Item::merge(incoming)`: adopt the incoming key when ours is empty,
then resolve every incoming property. -/
def Item.merge (t : Item) (inc : Item) : Item :=
  mergeProps (if t.key = [] then { t with key := inc.key } else t) inc.props

/-- The last property of a store carrying the given name, if any (the
property that wins under merge's in-order last-writer-wins
processing). -/
def lastNamed : List MProp → List Nat → Option MProp
  | [], _ => Option.none
  | p :: ps, n =>
    match lastNamed ps n with
    | some q => some q
    | Option.none => if p.name = n then some p else Option.none

/-- The record invariant of §3: no two properties of a store share the
same non-empty name (zero-length names are the invalid/deleted sentinel
and may repeat). -/
def NameUnique (ps : List MProp) : Prop :=
  ps.Pairwise (fun p q => p.name = q.name → p.name = [])

/-! ## Byte-string codec: primitives -/

/-- The `w` little-endian base-256 digits of `v` (the bytes `memcpy`
writes for a `w`-byte integer). -/
def toBytes : Nat → Nat → List Nat
  | 0, _ => []
  | w + 1, v => v % 256 :: toBytes w (v / 256)

/-- The value reassembled from little-endian base-256 digits. -/
def fromBytes : List Nat → Nat
  | [] => 0
  | b :: bs => b + 256 * fromBytes bs

/-- The byte the decoder sees at index `i`: in the buffer when
`i < buf.length`, and otherwise whatever the memory beyond the buffer
holds. -/
def byteAt (buf : List Nat) (oob : Nat → Nat) (i : Nat) : Nat :=
  if h : i < buf.length then buf.get ⟨i, h⟩ else oob i

/-- `extract<T>` (fixed width `w`): the bound is checked before the
read, so this never touches memory beyond the buffer. -/
def extractFixed (w : Nat) (buf : List Nat) (oob : Nat → Nat) (o : Nat) :
    Except Status (Nat × Nat) :=
  if o + w > buf.length then .error .badValue
  else .ok (fromBytes ((buf.drop o).take w), o + w)

/-- The NUL scan of `extract<char**>`, fuel-indexed: the byte at `p` is
dereferenced first, and only when it is non-NUL is `p` compared against
the end of the buffer (exactly the order of the source loop). -/
def scanNulF (buf : List Nat) (oob : Nat → Nat) :
    Nat → Nat → Except Status Nat
  | 0, _ => .error .badValue
  | fuel + 1, p =>
    if byteAt buf oob p = 0 then .ok p
    else if p ≥ buf.length then .error .badValue
    else scanNulF buf oob fuel (p + 1)

/-- The NUL scan of `extract<char**>` starting at offset `p`,
returning the position of the terminator it finds. -/
def scanNul (buf : List Nat) (oob : Nat → Nat) (p : Nat) : Except Status Nat :=
  if p < buf.length then scanNulF buf oob (buf.length + 1 - p) p
  else if byteAt buf oob p = 0 then .ok p
  else .error .badValue

/-- `extract<char**>`: scan for the NUL, then copy out the string
(value without the terminator), advancing past the terminator. -/
def extractCString (buf : List Nat) (oob : Nat → Nat) (o : Nat) :
    Except Status (List Nat × Nat) :=
  match scanNul buf oob o with
  | .error e => .error e
  | .ok p => .ok ((buf.drop o).take (p - o), p + 1)

/-- The write buffer of the encoder: the allocation size and the bytes
written so far (the cursor is `data.length`). -/
structure WBuf where
  cap : Nat
  data : List Nat
  deriving DecidableEq, Repr

/-- `insert<T>`: write bytes if they fit before `bufferptrmax`. -/
def insertBytes (bs : List Nat) (b : WBuf) : Except Status WBuf :=
  if b.data.length + bs.length > b.cap then .error .badValue
  else .ok ⟨b.cap, b.data ++ bs⟩

/-- `insert<const char*>`: a string longer than `UINT16_MAX` with its
terminator, or one that does not fit, is rejected. -/
def insertCString (s : List Nat) (b : WBuf) : Except Status WBuf :=
  if s.length + 1 > 65535 then .error .badValue
  else insertBytes (s ++ [0]) b

/-! ## Byte-string codec: properties -/

/-- Payload size per type, as in `Prop::getByteStringSize` (the `None`
case falls into the `default:` branch there and contributes no
payload). -/
def Val.payloadSize : Val → Nat
  | .i32 _ => 4
  | .i64 _ => 8
  | .dbl _ => 8
  | .rate _ _ => 16
  | .str s => s.length + 1
  | .none => 0

/-- `Prop::getByteStringSize`: length field + type byte + name with
terminator + payload. -/
def MProp.getByteStringSize (p : MProp) : Nat :=
  2 + 1 + (p.name.length + 1) + p.value.payloadSize

/-- The common prologue of the `BaseItem::writeToByteString` overloads:
check the record length against `UINT16_MAX`, then write the length,
the type byte and the NUL-terminated name. -/
def writeHead (len tag : Nat) (name : List Nat) (b : WBuf) :
    Except Status WBuf :=
  if len > 65535 then .error .badValue
  else
    match insertBytes (toBytes 2 len) b with
    | .error e => .error e
    | .ok b1 =>
      match insertBytes (toBytes 1 tag) b1 with
      | .error e => .error e
      | .ok b2 => insertCString name b2

/-- `Prop::writeToByteString`, dispatching to the per-type
`BaseItem::writeToByteString` overloads.  Note that the `none_t`
overload of the source writes the `kTypeCString` type code. -/
def MProp.writeToByteString (p : MProp) (b : WBuf) : Except Status WBuf :=
  match p.value with
  | .i32 v =>
    match writeHead (2 + 1 + (p.name.length + 1) + 4) kTypeInt32 p.name b with
    | .error e => .error e
    | .ok b1 => insertBytes (toBytes 4 v) b1
  | .i64 v =>
    match writeHead (2 + 1 + (p.name.length + 1) + 8) kTypeInt64 p.name b with
    | .error e => .error e
    | .ok b1 => insertBytes (toBytes 8 v) b1
  | .dbl v =>
    match writeHead (2 + 1 + (p.name.length + 1) + 8) kTypeDouble p.name b with
    | .error e => .error e
    | .ok b1 => insertBytes (toBytes 8 v) b1
  | .rate x y =>
    match writeHead (2 + 1 + (p.name.length + 1) + 8 + 8) kTypeRate p.name b with
    | .error e => .error e
    | .ok b1 =>
      match insertBytes (toBytes 8 x) b1 with
      | .error e => .error e
      | .ok b2 => insertBytes (toBytes 8 y) b2
  | .str s =>
    match writeHead (2 + 1 + (p.name.length + 1) + (s.length + 1)) kTypeCString p.name b with
    | .error e => .error e
    | .ok b1 => insertCString s b1
  | .none =>
    writeHead (2 + 1 + (p.name.length + 1)) kTypeCString p.name b

/-- The size-accumulation loop of `Item::writeToByteString`: reject a
property record larger than `UINT16_MAX` and any `uint32_t` overflow of
the running total. -/
def accumSize : List MProp → Nat → Except Status Nat
  | [], s => .ok s
  | p :: ps, s =>
    if p.getByteStringSize > 65535 then .error .invalidOperation
    else if s + p.getByteStringSize ≥ 2 ^ 32 then .error .invalidOperation
    else accumSize ps (s + p.getByteStringSize)

/-- `header_size` of `Item::writeToByteString`: the fixed fields
(4+4+2+2+4+4+8 = 28 bytes) plus the NUL-terminated key. -/
def Item.headerSize (it : Item) : Nat := 28 + (it.key.length + 1)

/-- The size-computation phase of `Item::writeToByteString` (everything
before the buffer is allocated). -/
def Item.byteStringSizeE (it : Item) : Except Status Nat :=
  if it.key.length + 1 > 65535 then .error .invalidOperation
  else accumSize it.props (it.headerSize + 4)

/-- The property-writing loop of `Item::writeToByteString`. -/
def writeProps : List MProp → WBuf → Except Status WBuf
  | [], b => .ok b
  | p :: ps, b =>
    match p.writeToByteString b with
    | .error _ => .error .invalidOperation
    | .ok b1 => writeProps ps b1

/-- `Item::writeToByteString`: compute the total size (with overflow
checks), allocate exactly that many bytes, write all fields left to
right, and require the final cursor to land exactly on the end of the
allocation.  On success the byte buffer is returned; on failure nothing
is. -/
def Item.writeToByteString (it : Item) : Except Status (List Nat) :=
  match it.byteStringSizeE with
  | .error e => .error e
  | .ok size =>
    match insertBytes (toBytes 4 size) ⟨size, []⟩ with
    | .error _ => .error .invalidOperation
    | .ok b1 =>
    match insertBytes (toBytes 4 it.headerSize) b1 with
    | .error _ => .error .invalidOperation
    | .ok b2 =>
    match insertBytes (toBytes 2 0) b2 with
    | .error _ => .error .invalidOperation
    | .ok b3 =>
    match insertBytes (toBytes 2 (it.key.length + 1)) b3 with
    | .error _ => .error .invalidOperation
    | .ok b4 =>
    match insertCString it.key b4 with
    | .error _ => .error .invalidOperation
    | .ok b5 =>
    match insertBytes (toBytes 4 it.pid) b5 with
    | .error _ => .error .invalidOperation
    | .ok b6 =>
    match insertBytes (toBytes 4 it.uid) b6 with
    | .error _ => .error .invalidOperation
    | .ok b7 =>
    match insertBytes (toBytes 8 it.timestamp) b7 with
    | .error _ => .error .invalidOperation
    | .ok b8 =>
    match insertBytes (toBytes 4 it.props.length) b8 with
    | .error _ => .error .invalidOperation
    | .ok b9 =>
    match writeProps it.props b9 with
    | .error _ => .error .invalidOperation
    | .ok bf =>
      if bf.data.length ≠ bf.cap then .error .invalidOperation
      else .ok bf.data

/-- The type byte that `Prop::writeToByteString` emits for each value
(`kTypeCString` for `none`, per the `none_t` overload of the source). -/
def Val.tagByte : Val → Nat
  | .i32 _ => kTypeInt32
  | .i64 _ => kTypeInt64
  | .dbl _ => kTypeDouble
  | .rate _ _ => kTypeRate
  | .str _ => kTypeCString
  | .none => kTypeCString

/-- The payload bytes `Prop::writeToByteString` emits. -/
def Val.payloadBytes : Val → List Nat
  | .i32 v => toBytes 4 v
  | .i64 v => toBytes 8 v
  | .dbl v => toBytes 8 v
  | .rate a b => toBytes 8 a ++ toBytes 8 b
  | .str s => s ++ [0]
  | .none => []

/-- The byte layout of one property record. -/
def propBytes (p : MProp) : List Nat :=
  toBytes 2 p.getByteStringSize ++ toBytes 1 p.value.tagByte ++
    p.name ++ [0] ++ p.value.payloadBytes

/-- The byte layout of a property list. -/
def propsBytes : List MProp → List Nat
  | [] => []
  | p :: ps => propBytes p ++ propsBytes ps

/-- The header bytes of the encoding, up to and excluding the property
count. -/
def headBytes (it : Item) (size : Nat) : List Nat :=
  toBytes 4 size ++ toBytes 4 it.headerSize ++ toBytes 2 0 ++
    toBytes 2 (it.key.length + 1) ++ it.key ++ [0] ++
    toBytes 4 it.pid ++ toBytes 4 it.uid ++ toBytes 8 it.timestamp

/-- The complete byte layout the encoder produces for `it` when the
size-computation phase returns `size`. -/
def encodeBytesAt (it : Item) (size : Nat) : List Nat :=
  headBytes it size ++ toBytes 4 it.props.length ++ propsBytes it.props

/-- The byte layout the encoder produces for `it` (meaningful when the
size-computation phase succeeds). -/
def encodeBytes (it : Item) : List Nat :=
  match it.byteStringSizeE with
  | .error _ => []
  | .ok size => encodeBytesAt it size

/-! ## Byte-string codec: decoding -/

/-- `Prop::readFromByteString`: record length (read but not otherwise
used), type byte, NUL-terminated name, then the type-directed payload;
an unrecognized type code is an error. -/
def readProp (buf : List Nat) (oob : Nat → Nat) (o : Nat) :
    Except Status (MProp × Nat) :=
  match extractFixed 2 buf oob o with
  | .error e => .error e
  | .ok (_len, o1) =>
  match extractFixed 1 buf oob o1 with
  | .error e => .error e
  | .ok (tag, o2) =>
  match extractCString buf oob o2 with
  | .error e => .error e
  | .ok (name, o3) =>
    if tag = kTypeInt32 then
      match extractFixed 4 buf oob o3 with
      | .error e => .error e
      | .ok (v, o4) => .ok (⟨name, .i32 v⟩, o4)
    else if tag = kTypeInt64 then
      match extractFixed 8 buf oob o3 with
      | .error e => .error e
      | .ok (v, o4) => .ok (⟨name, .i64 v⟩, o4)
    else if tag = kTypeDouble then
      match extractFixed 8 buf oob o3 with
      | .error e => .error e
      | .ok (v, o4) => .ok (⟨name, .dbl v⟩, o4)
    else if tag = kTypeRate then
      match extractFixed 8 buf oob o3 with
      | .error e => .error e
      | .ok (a, o4) =>
      match extractFixed 8 buf oob o4 with
      | .error e => .error e
      | .ok (b, o5) => .ok (⟨name, .rate a b⟩, o5)
    else if tag = kTypeCString then
      match extractCString buf oob o3 with
      | .error e => .error e
      | .ok (s, o4) => .ok (⟨name, .str s⟩, o4)
    else if tag = kTypeNone then .ok (⟨name, .none⟩, o3)
    else .error .badValue

/-- The property loop of `Item::readFromByteString`: each decoded
property is appended to the store (`allocateProp()` appends without any
duplicate-name check). -/
def readProps (buf : List Nat) (oob : Nat → Nat) :
    Nat → Nat → List MProp → Except Status (List MProp × Nat)
  | 0, o, acc => .ok (acc, o)
  | n + 1, o, acc =>
    match readProp buf oob o with
    | .error _ => .error .invalidOperation
    | .ok (p, o1) => readProps buf oob n o1 (acc ++ [p])

/-- `Item::readFromByteString`: read the fixed header fields, validate
`totalSize`, the key length and `headerSize`, fail when the read offset
has passed `headerSize` and otherwise continue at `headerSize` (size
and position checks as in the source), then read `propertyCount`
property records.  Every failure is `INVALID_OPERATION`. -/
def Item.readFromByteString (it : Item) (buf : List Nat) (oob : Nat → Nat) :
    Except Status Item :=
  match extractFixed 4 buf oob 0 with
  | .error _ => .error .invalidOperation
  | .ok (size, o1) =>
  match extractFixed 4 buf oob o1 with
  | .error _ => .error .invalidOperation
  | .ok (header_size, o2) =>
  match extractFixed 2 buf oob o2 with
  | .error _ => .error .invalidOperation
  | .ok (_version, o3) =>
  match extractFixed 2 buf oob o3 with
  | .error _ => .error .invalidOperation
  | .ok (key_size, o4) =>
  match extractCString buf oob o4 with
  | .error _ => .error .invalidOperation
  | .ok (key, o5) =>
  match extractFixed 4 buf oob o5 with
  | .error _ => .error .invalidOperation
  | .ok (pid, o6) =>
  match extractFixed 4 buf oob o6 with
  | .error _ => .error .invalidOperation
  | .ok (uid, o7) =>
  match extractFixed 8 buf oob o7 with
  | .error _ => .error .invalidOperation
  | .ok (timestamp, o8) =>
  if size > buf.length ∨ key.length + 1 ≠ key_size ∨ header_size > size then
    .error .invalidOperation
  else if o8 > header_size then .error .invalidOperation
  else
    match extractFixed 4 buf oob header_size with
    | .error _ => .error .invalidOperation
    | .ok (propCount, o9) =>
      match readProps buf oob propCount o9 it.props with
      | .error _ => .error .invalidOperation
      | .ok (ps, _) =>
        .ok { it with key := key, pid := pid, uid := uid,
                      timestamp := timestamp, props := ps }

/-! ## Parcel codec -/

/-- A field of the parcel stream, as produced/consumed by the typed
`Parcel` read and write calls of the source. -/
inductive PVal where
  | i32 (v : Nat)
  | i64 (v : Nat)
  | f64 (v : Nat)
  | str (s : List Nat)
  deriving DecidableEq, Repr

/-- The parcel, as the sequence of fields still to be read. -/
abbrev Parcel := List PVal

/-- `Parcel::readInt32`. -/
def readInt32 : Parcel → Except Status (Nat × Parcel)
  | PVal.i32 v :: d => .ok (v, d)
  | _ => .error .badValue

/-- `Parcel::readInt64`. -/
def readInt64 : Parcel → Except Status (Nat × Parcel)
  | PVal.i64 v :: d => .ok (v, d)
  | _ => .error .badValue

/-- `Parcel::readDouble` (the 8-byte pattern). -/
def readDouble : Parcel → Except Status (Nat × Parcel)
  | PVal.f64 v :: d => .ok (v, d)
  | _ => .error .badValue

/-- `Parcel::readCString`. -/
def readCString : Parcel → Except Status (List Nat × Parcel)
  | PVal.str s :: d => .ok (s, d)
  | _ => .error .badValue

/-- `Prop::readFromParcel`: name, `int32` type code, then the
type-directed payload; `kTypeNone` is not representable and falls into
the failing `default:` branch. -/
def readPropFromParcel (d : Parcel) : Except Status (MProp × Parcel) :=
  match readCString d with
  | .error _ => .error .badValue
  | .ok (name, d1) =>
  match readInt32 d1 with
  | .error e => .error e
  | .ok (tag, d2) =>
    if tag = kTypeInt32 then
      match readInt32 d2 with
      | .error e => .error e
      | .ok (v, d3) => .ok (⟨name, .i32 v⟩, d3)
    else if tag = kTypeInt64 then
      match readInt64 d2 with
      | .error e => .error e
      | .ok (v, d3) => .ok (⟨name, .i64 v⟩, d3)
    else if tag = kTypeDouble then
      match readDouble d2 with
      | .error e => .error e
      | .ok (v, d3) => .ok (⟨name, .dbl v⟩, d3)
    else if tag = kTypeCString then
      match readCString d2 with
      | .error e => .error e
      | .ok (s, d3) => .ok (⟨name, .str s⟩, d3)
    else if tag = kTypeRate then
      match readInt64 d2 with
      | .error e => .error e
      | .ok (a, d3) =>
      match readInt64 d3 with
      | .error e => .error e
      | .ok (b, d4) => .ok (⟨name, .rate a b⟩, d4)
    else .error .badValue

/-- The property loop of `Item::readFromParcel0`: decoded properties
are appended with the argument-less `allocateProp()`. -/
def readParcelProps : Nat → Parcel → List MProp →
    Except Status (List MProp × Parcel)
  | 0, d, acc => .ok (acc, d)
  | n + 1, d, acc =>
    match readPropFromParcel d with
    | .error e => .error e
    | .ok (p, d1) => readParcelProps n d1 (acc ++ [p])

/-- `Item::readFromParcel0`: key, pid, uid, package name, package
version, timestamp, then a non-negative count of properties (`count` is
an `int32_t` bit pattern; patterns at or above `2 ^ 31` are negative
and rejected). -/
def Item.readFromParcel0 (it : Item) (d : Parcel) :
    Except Status (Item × Parcel) :=
  match readCString d with
  | .error _ => .error .badValue
  | .ok (key, d1) =>
  match readInt32 d1 with
  | .error e => .error e
  | .ok (pid, d2) =>
  match readInt32 d2 with
  | .error e => .error e
  | .ok (uid, d3) =>
  match readCString d3 with
  | .error _ => .error .badValue
  | .ok (pkgName, d4) =>
  match readInt64 d4 with
  | .error e => .error e
  | .ok (version, d5) =>
  match readInt64 d5 with
  | .error e => .error e
  | .ok (timestamp, d6) =>
  match readInt32 d6 with
  | .error e => .error e
  | .ok (count, d7) =>
  if 2 ^ 31 ≤ count then .error .badValue
  else
    match readParcelProps count d7 it.props with
    | .error e => .error e
    | .ok (ps, d8) =>
      .ok ({ it with key := key, pid := pid, uid := uid, pkgName := pkgName,
                     pkgVersionCode := version, timestamp := timestamp,
                     props := ps }, d8)

/-- `Item::readFromParcel`: read the `int32` version tag; only version
`0` is defined, any other version is rejected as unsupported. -/
def Item.readFromParcel (it : Item) (d : Parcel) :
    Except Status (Item × Parcel) :=
  match readInt32 d with
  | .error e => .error e
  | .ok (version, d1) =>
    if version = 0 then it.readFromParcel0 d1
    else .error .invalidOperation

/-! ## Well-formedness -/

instance {e a : Type} [DecidableEq e] [DecidableEq a] :
    DecidableEq (Except e a) := fun x y =>
  match x, y with
  | .error e1, .error e2 =>
      if h : e1 = e2 then isTrue (by rw [h])
      else isFalse (by intro hc; cases hc; exact h rfl)
  | .ok a1, .ok a2 =>
      if h : a1 = a2 then isTrue (by rw [h])
      else isFalse (by intro hc; cases hc; exact h rfl)
  | .error _, .ok _ => isFalse (by intro hc; cases hc)
  | .ok _, .error _ => isFalse (by intro hc; cases hc)

/-- A machine-representable value: integer patterns fit their width and
string bytes are non-NUL. -/
def Val.wf : Val → Prop
  | .i32 v => v < 2 ^ 32
  | .i64 v => v < 2 ^ 64
  | .dbl v => v < 2 ^ 64
  | .rate a b => a < 2 ^ 64 ∧ b < 2 ^ 64
  | .str s => ∀ b ∈ s, b ≠ 0
  | .none => True

instance (v : Val) : Decidable v.wf := by
  cases v
  case i32 v => exact inferInstanceAs (Decidable (v < 2 ^ 32))
  case i64 v => exact inferInstanceAs (Decidable (v < 2 ^ 64))
  case dbl v => exact inferInstanceAs (Decidable (v < 2 ^ 64))
  case rate a b => exact inferInstanceAs (Decidable (a < 2 ^ 64 ∧ b < 2 ^ 64))
  case str s => exact inferInstanceAs (Decidable (∀ b ∈ s, b ≠ 0))
  case none => exact inferInstanceAs (Decidable True)

/-- A machine-representable property. -/
def MProp.wf (p : MProp) : Prop := (∀ b ∈ p.name, b ≠ 0) ∧ p.value.wf

instance (p : MProp) : Decidable p.wf :=
  inferInstanceAs (Decidable ((∀ b ∈ p.name, b ≠ 0) ∧ p.value.wf))

/-- A machine-representable item. -/
def Item.wfm (it : Item) : Prop :=
  (∀ b ∈ it.key, b ≠ 0) ∧ it.pid < 2 ^ 32 ∧ it.uid < 2 ^ 32 ∧
    it.timestamp < 2 ^ 64 ∧ it.props.length < 2 ^ 32 ∧ ∀ p ∈ it.props, p.wf

instance (it : Item) : Decidable it.wfm :=
  inferInstanceAs (Decidable ((∀ b ∈ it.key, b ≠ 0) ∧ it.pid < 2 ^ 32 ∧
    it.uid < 2 ^ 32 ∧ it.timestamp < 2 ^ 64 ∧ it.props.length < 2 ^ 32 ∧
    ∀ p ∈ it.props, p.wf))

/-! ## Concrete examples used by individual claims -/

/-- An item holding a single `None`-typed property (key `"k"`,
name `"a"`). -/
def c1NoneItem : Item := ⟨[107], 1, 2, [], 0, 3, [⟨[97], .none⟩]⟩

/-- A well-formed item with one property of each encodable type. -/
def c1WfItem : Item :=
  ⟨[107], 1, 2, [], 0, 3,
    [⟨[97], .i32 7⟩, ⟨[98], .str [99]⟩, ⟨[100], .rate 5 6⟩,
     ⟨[101], .i64 8⟩, ⟨[102], .dbl 9⟩]⟩

/-- An item whose store holds two properties with the same name `"a"`
(such a store is constructible, e.g. by decoding; the encoder accepts
it). -/
def c3DupItem : Item := ⟨[], 0, 0, [], 0, 0, [⟨[97], .i32 5⟩, ⟨[97], .i32 6⟩]⟩

/-- The encoder layout with `pad` extra header-padding bytes inserted
between the fixed header fields and the property count, with
`totalSize` and `headerSize` enlarged accordingly (the forward-extension
layout the decoder's skip-forward rule exists for). -/
def padEncodeBytes (it : Item) (size : Nat) (pad : List Nat) : List Nat :=
  toBytes 4 (size + pad.length) ++ toBytes 4 (it.headerSize + pad.length) ++
    toBytes 2 0 ++ toBytes 2 (it.key.length + 1) ++ it.key ++ [0] ++
    toBytes 4 it.pid ++ toBytes 4 it.uid ++ toBytes 8 it.timestamp ++
    pad ++ toBytes 4 it.props.length ++ propsBytes it.props

/-! ## Byte-level lemmas -/

theorem toBytes_length (w v : Nat) : (toBytes w v).length = w := by
  induction w generalizing v with
  | zero => rfl
  | succ k ih => simp [toBytes, ih]

theorem fromBytes_toBytes (w v : Nat) :
    fromBytes (toBytes w v) = v % 256 ^ w := by
  induction w generalizing v with
  | zero => simp [toBytes, fromBytes, Nat.mod_one]
  | succ k ih =>
      simp only [toBytes, fromBytes, ih]
      rw [pow_succ, mul_comm (256 ^ k) 256, Nat.mod_mul]

theorem fromBytes_toBytes_of_lt {w v : Nat} (h : v < 256 ^ w) :
    fromBytes (toBytes w v) = v := by
  rw [fromBytes_toBytes, Nat.mod_eq_of_lt h]

theorem extractFixed_of_drop {buf rest : List Nat} {o w v : Nat}
    (oob : Nat → Nat) (hw : 0 < w) (h : buf.drop o = toBytes w v ++ rest) :
    extractFixed w buf oob o = .ok (v % 256 ^ w, o + w) ∧
      buf.drop (o + w) = rest := by
  have hlen : buf.length - o = w + rest.length := by
    have hc := congrArg List.length h
    simpa [toBytes_length] using hc
  have hole : o + w ≤ buf.length := by
    rcases le_or_lt o buf.length with h1 | h1
    · omega
    · exfalso
      have : buf.length - o = 0 := by omega
      omega
  have htake : (buf.drop o).take w = toBytes w v := by
    have h2 := List.take_left (toBytes w v) rest
    rw [toBytes_length] at h2
    rw [h, h2]
  have hdrop : buf.drop (o + w) = rest := by
    have h2 := List.drop_left (toBytes w v) rest
    rw [toBytes_length] at h2
    rw [← List.drop_drop, h, h2]
  refine ⟨?_, hdrop⟩
  unfold extractFixed
  rw [if_neg (by omega), htake, fromBytes_toBytes]

theorem byteAt_of_drop {buf : List Nat} {o x : Nat} {r : List Nat}
    (oob : Nat → Nat) (h : buf.drop o = x :: r) :
    byteAt buf oob o = x := by
  have hlen : buf.length - o = r.length + 1 := by
    have hc := congrArg List.length h
    simpa using hc
  have ho : o < buf.length := by omega
  have h0 : buf[o + 0]? = some x := by
    rw [← List.getElem?_drop, h]
    simp
  have h1 : buf[o]? = some (buf[o]) := List.getElem?_eq_getElem ho
  rw [Nat.add_zero, h1] at h0
  unfold byteAt
  rw [dif_pos ho]
  exact Option.some.inj h0

theorem scanNulF_of_drop {buf : List Nat} (oob : Nat → Nat) :
    ∀ (s : List Nat) (fuel o : Nat) (rest : List Nat),
      buf.drop o = s ++ 0 :: rest → (∀ b ∈ s, b ≠ 0) → s.length < fuel →
      scanNulF buf oob fuel o = .ok (o + s.length) := by
  intro s
  induction s with
  | nil =>
      intro fuel o rest h hz hf
      cases fuel with
      | zero => omega
      | succ f =>
        unfold scanNulF
        rw [byteAt_of_drop oob (by simpa using h)]
        simp
  | cons b s ih =>
      intro fuel o rest h hz hf
      cases fuel with
      | zero => omega
      | succ f =>
        have hb : b ≠ 0 := hz b (by simp)
        have hc := congrArg List.length h
        simp only [List.length_drop, List.length_append, List.length_cons] at hc
        have ho : o < buf.length := by omega
        have hdrop : buf.drop (o + 1) = s ++ 0 :: rest := by
          have h2 : (buf.drop o).drop 1 = buf.drop (o + 1) := List.drop_drop 1 o buf
          rw [← h2, h]
          simp
        have hrec := ih f (o + 1) rest hdrop
          (fun x hx => hz x (List.mem_cons_of_mem b hx))
          (by simp only [List.length_cons] at hf; omega)
        unfold scanNulF
        rw [byteAt_of_drop oob (by simpa using h), if_neg hb,
          if_neg (by omega), hrec]
        congr 1
        simp only [List.length_cons]
        omega

theorem scanNul_of_drop {buf : List Nat} {o : Nat} {s rest : List Nat}
    (oob : Nat → Nat) (h : buf.drop o = s ++ 0 :: rest)
    (hz : ∀ b ∈ s, b ≠ 0) :
    scanNul buf oob o = .ok (o + s.length) := by
  have hlen : buf.length - o = s.length + rest.length + 1 := by
    have hc := congrArg List.length h
    simp at hc
    omega
  have ho : o < buf.length := by omega
  unfold scanNul
  rw [if_pos ho]
  exact scanNulF_of_drop oob s (buf.length + 1 - o) o rest h hz (by omega)

theorem extractCString_of_drop {buf : List Nat} {o : Nat} {s rest : List Nat}
    (oob : Nat → Nat) (h : buf.drop o = s ++ 0 :: rest)
    (hz : ∀ b ∈ s, b ≠ 0) :
    extractCString buf oob o = .ok (s, o + s.length + 1) ∧
      buf.drop (o + s.length + 1) = rest := by
  have hscan := scanNul_of_drop oob h hz
  constructor
  · have htake : (buf.drop o).take s.length = s := by
      rw [h]
      exact List.take_left s (0 :: rest)
    unfold extractCString
    rw [hscan]
    simp [htake]
  · have h2 : buf.drop (o + s.length + 1) = ((buf.drop o).drop s.length).drop 1 := by
      rw [List.drop_drop, List.drop_drop]
      congr 1
    have h3 : (s ++ 0 :: rest).drop s.length = 0 :: rest := by
      have := List.drop_left s (0 :: rest)
      simpa using this
    rw [h2, h, h3]
    simp

/-! ## Encoder lemmas -/

theorem propBytes_length (p : MProp) :
    (propBytes p).length = p.getByteStringSize := by
  cases hv : p.value <;>
    simp [propBytes, MProp.getByteStringSize, Val.payloadBytes, Val.payloadSize,
      Val.tagByte, toBytes_length, hv] <;> omega

theorem accumSize_ok : ∀ {ps : List MProp} {s t : Nat},
    accumSize ps s = .ok t → s < 2 ^ 32 →
    t = s + (propsBytes ps).length ∧
      (∀ p ∈ ps, p.getByteStringSize ≤ 65535) ∧ t < 2 ^ 32
  | [], s, t, h, hs => by
      simp only [accumSize] at h
      cases h
      exact ⟨by simp [propsBytes], by simp, hs⟩
  | p :: ps, s, t, h, hs => by
      simp only [accumSize] at h
      by_cases h1 : p.getByteStringSize > 65535
      · rw [if_pos h1] at h
        exact absurd h (by simp)
      · rw [if_neg h1] at h
        by_cases h2 : s + p.getByteStringSize ≥ 2 ^ 32
        · rw [if_pos h2] at h
          exact absurd h (by simp)
        · rw [if_neg h2] at h
          have ih := accumSize_ok h (by omega)
          refine ⟨?_, ?_, ih.2.2⟩
          · rw [ih.1]
            simp only [propsBytes, List.length_append, propBytes_length]
            omega
          · intro q hq
            rcases List.mem_cons.mp hq with rfl | hq
            · omega
            · exact ih.2.1 q hq

theorem insertBytes_ok {bs : List Nat} {b : WBuf}
    (h : b.data.length + bs.length ≤ b.cap) :
    insertBytes bs b = .ok ⟨b.cap, b.data ++ bs⟩ := by
  unfold insertBytes
  rw [if_neg (by omega)]

theorem insertCString_ok {s : List Nat} {b : WBuf}
    (h1 : s.length + 1 ≤ 65535) (h2 : b.data.length + (s.length + 1) ≤ b.cap) :
    insertCString s b = .ok ⟨b.cap, b.data ++ (s ++ [0])⟩ := by
  unfold insertCString
  rw [if_neg (by omega), insertBytes_ok (by simp; omega)]

theorem writeHead_ok {len tag : Nat} {name : List Nat} {b : WBuf}
    (hl : len ≤ 65535) (hn : name.length + 1 ≤ 65535)
    (hc : b.data.length + (2 + 1 + (name.length + 1)) ≤ b.cap) :
    writeHead len tag name b =
      .ok ⟨b.cap, b.data ++ (toBytes 2 len ++ (toBytes 1 tag ++ (name ++ [0])))⟩ := by
  unfold writeHead
  rw [if_neg (by omega)]
  rw [insertBytes_ok (by simp [toBytes_length]; omega)]
  simp only []
  rw [insertBytes_ok (by simp [toBytes_length]; omega)]
  simp only []
  rw [insertCString_ok hn (by simp [toBytes_length]; omega)]
  simp [List.append_assoc]

theorem writeProp_ok {p : MProp} {b : WBuf}
    (hs : p.getByteStringSize ≤ 65535)
    (hc : b.data.length + p.getByteStringSize ≤ b.cap) :
    p.writeToByteString b = .ok ⟨b.cap, b.data ++ propBytes p⟩ := by
  have hn : p.name.length + 1 ≤ 65535 := by
    have := hs
    simp [MProp.getByteStringSize] at this
    omega
  cases hv : p.value with
  | i32 v =>
      rw [MProp.getByteStringSize, hv] at hs hc
      simp only [MProp.writeToByteString, hv]
      rw [writeHead_ok (by simp [Val.payloadSize] at hs; omega) hn
        (by simp [Val.payloadSize] at hc; omega)]
      simp only []
      rw [insertBytes_ok (by simp [toBytes_length, Val.payloadSize] at hc ⊢; omega)]
      simp [propBytes, MProp.getByteStringSize, hv, Val.payloadBytes, Val.tagByte,
        Val.payloadSize, List.append_assoc]
  | i64 v =>
      rw [MProp.getByteStringSize, hv] at hs hc
      simp only [MProp.writeToByteString, hv]
      rw [writeHead_ok (by simp [Val.payloadSize] at hs; omega) hn
        (by simp [Val.payloadSize] at hc; omega)]
      simp only []
      rw [insertBytes_ok (by simp [toBytes_length, Val.payloadSize] at hc ⊢; omega)]
      simp [propBytes, MProp.getByteStringSize, hv, Val.payloadBytes, Val.tagByte,
        Val.payloadSize, List.append_assoc]
  | dbl v =>
      rw [MProp.getByteStringSize, hv] at hs hc
      simp only [MProp.writeToByteString, hv]
      rw [writeHead_ok (by simp [Val.payloadSize] at hs; omega) hn
        (by simp [Val.payloadSize] at hc; omega)]
      simp only []
      rw [insertBytes_ok (by simp [toBytes_length, Val.payloadSize] at hc ⊢; omega)]
      simp [propBytes, MProp.getByteStringSize, hv, Val.payloadBytes, Val.tagByte,
        Val.payloadSize, List.append_assoc]
  | rate x y =>
      rw [MProp.getByteStringSize, hv] at hs hc
      simp only [MProp.writeToByteString, hv]
      rw [writeHead_ok (by simp [Val.payloadSize] at hs; omega) hn
        (by simp [Val.payloadSize] at hc; omega)]
      simp only []
      rw [insertBytes_ok (by simp [toBytes_length, Val.payloadSize] at hc ⊢; omega)]
      simp only []
      rw [insertBytes_ok (by simp [toBytes_length, Val.payloadSize] at hc ⊢; omega)]
      simp [propBytes, MProp.getByteStringSize, hv, Val.payloadBytes, Val.tagByte,
        Val.payloadSize, List.append_assoc]
  | str s =>
      rw [MProp.getByteStringSize, hv] at hs hc
      simp only [MProp.writeToByteString, hv]
      rw [writeHead_ok (by simp [Val.payloadSize] at hs; omega) hn
        (by simp [Val.payloadSize] at hc; omega)]
      simp only []
      rw [insertCString_ok (by simp [Val.payloadSize] at hs; omega)
        (by simp [toBytes_length, Val.payloadSize] at hc ⊢; omega)]
      simp [propBytes, MProp.getByteStringSize, hv, Val.payloadBytes, Val.tagByte,
        Val.payloadSize, List.append_assoc]
  | none =>
      rw [MProp.getByteStringSize, hv] at hs hc
      simp only [MProp.writeToByteString, hv]
      rw [writeHead_ok (by simp [Val.payloadSize] at hs; omega) hn
        (by simp [Val.payloadSize] at hc; omega)]
      simp [propBytes, MProp.getByteStringSize, hv, Val.payloadBytes, Val.tagByte,
        Val.payloadSize, List.append_assoc]

theorem writeProps_ok : ∀ {ps : List MProp} {b : WBuf},
    (∀ p ∈ ps, p.getByteStringSize ≤ 65535) →
    b.data.length + (propsBytes ps).length ≤ b.cap →
    writeProps ps b = .ok ⟨b.cap, b.data ++ propsBytes ps⟩
  | [], b, _, _ => by simp [writeProps, propsBytes]
  | p :: ps, b, hs, hc => by
      simp only [propsBytes, List.length_append, propBytes_length] at hc
      simp only [writeProps]
      rw [writeProp_ok (hs p (by simp)) (by omega)]
      simp only []
      rw [writeProps_ok (fun q hq => hs q (by simp [hq]))
        (by simp [propBytes_length]; omega)]
      simp [propsBytes, List.append_assoc]

theorem writeToByteString_ok (it : Item) {size : Nat}
    (h : it.byteStringSizeE = .ok size) :
    it.writeToByteString = .ok (encodeBytesAt it size) ∧
      (encodeBytesAt it size).length = size := by
  by_cases hk : it.key.length + 1 > 65535
  · rw [Item.byteStringSizeE, if_pos hk] at h
    exact absurd h (by simp)
  · rw [Item.byteStringSizeE, if_neg hk] at h
    have hinit : it.headerSize + 4 < 2 ^ 32 := by
      simp [Item.headerSize]
      omega
    obtain ⟨hsz, hps, hlt⟩ := accumSize_ok h hinit
    rw [Item.headerSize] at hsz
    have hlen : (encodeBytesAt it size).length = size := by
      simp [encodeBytesAt, headBytes, toBytes_length, Item.headerSize]
      omega
    refine ⟨?_, hlen⟩
    unfold Item.writeToByteString
    rw [Item.byteStringSizeE, if_neg hk, h]
    simp only []
    rw [insertBytes_ok (by simp [toBytes_length]; omega)]
    simp only []
    rw [insertBytes_ok (by simp [toBytes_length]; omega)]
    simp only []
    rw [insertBytes_ok (by simp [toBytes_length]; omega)]
    simp only []
    rw [insertBytes_ok (by simp [toBytes_length]; omega)]
    simp only []
    rw [insertCString_ok (by omega) (by simp [toBytes_length]; omega)]
    simp only []
    rw [insertBytes_ok (by simp [toBytes_length]; omega)]
    simp only []
    rw [insertBytes_ok (by simp [toBytes_length]; omega)]
    simp only []
    rw [insertBytes_ok (by simp [toBytes_length]; omega)]
    simp only []
    rw [insertBytes_ok (by simp [toBytes_length]; omega)]
    simp only []
    rw [writeProps_ok hps (by simp [toBytes_length]; omega)]
    simp only []
    rw [if_neg (by simp [toBytes_length]; omega)]
    simp [encodeBytesAt, headBytes, List.append_assoc]

theorem writeToByteString_err (it : Item) {e : Status}
    (h : it.byteStringSizeE = .error e) :
    it.writeToByteString = .error e := by
  unfold Item.writeToByteString
  rw [h]

/-! ## Decoder lemmas -/

theorem readPropPieces {buf : List Nat} {o L T : Nat} {nm pay : List Nat}
    (oob : Nat → Nat) (hnm : ∀ b ∈ nm, b ≠ 0)
    (h : buf.drop o = toBytes 2 L ++ (toBytes 1 T ++ (nm ++ (0 :: pay)))) :
    extractFixed 2 buf oob o = .ok (L % 256 ^ 2, o + 2) ∧
    extractFixed 1 buf oob (o + 2) = .ok (T % 256, o + 3) ∧
    extractCString buf oob (o + 3) = .ok (nm, o + 4 + nm.length) ∧
    buf.drop (o + 4 + nm.length) = pay := by
  obtain ⟨e1, d1⟩ := extractFixed_of_drop oob (w := 2) (by omega) h
  obtain ⟨e2, d2⟩ := extractFixed_of_drop oob (w := 1) (by omega) d1
  have a1 : o + 2 + 1 = o + 3 := by omega
  rw [a1] at e2 d2
  obtain ⟨e3, d3⟩ := extractCString_of_drop oob d2 hnm
  have a2 : o + 3 + nm.length + 1 = o + 4 + nm.length := by omega
  rw [a2] at e3 d3
  exact ⟨e1, by simpa using e2, e3, d3⟩

theorem readProp_of_drop {buf : List Nat} {o : Nat} {p : MProp}
    {rest : List Nat} (oob : Nat → Nat) (hwf : p.wf)
    (hnn : p.value ≠ .none)
    (h : buf.drop o = propBytes p ++ rest) :
    readProp buf oob o = .ok (p, o + p.getByteStringSize) ∧
      buf.drop (o + p.getByteStringSize) = rest := by
  obtain ⟨nm, val⟩ := p
  obtain ⟨hnm, hval⟩ := hwf
  simp only [MProp.wf] at hnm hval
  cases val with
  | i32 v =>
      have h' : buf.drop o = toBytes 2 (MProp.getByteStringSize ⟨nm, .i32 v⟩) ++
          (toBytes 1 kTypeInt32 ++ (nm ++ (0 :: (toBytes 4 v ++ rest)))) := by
        simpa [propBytes, Val.tagByte, Val.payloadBytes, List.append_assoc] using h
      obtain ⟨e1, e2, e3, d3⟩ := readPropPieces oob hnm h'
      obtain ⟨e4, d4⟩ := extractFixed_of_drop oob (w := 4) (by omega) d3
      have hv4 : v % 256 ^ 4 = v := Nat.mod_eq_of_lt (by
        have : (256 : Nat) ^ 4 = 2 ^ 32 := by norm_num
        rw [this]
        exact hval)
      rw [hv4] at e4
      norm_num [kTypeInt32] at e2
      constructor
      · simp only [readProp]
        rw [e1]
        simp only []
        rw [e2]
        simp only []
        rw [e3]
        simp only []
        rw [if_pos (by norm_num [kTypeInt32] : (1 : Nat) = kTypeInt32), e4]
        simp [MProp.getByteStringSize, Val.payloadSize]
        omega
      · have : o + (MProp.getByteStringSize ⟨nm, .i32 v⟩) = o + 4 + nm.length + 4 := by
          simp [MProp.getByteStringSize, Val.payloadSize]
          omega
        rw [this]
        exact d4
  | i64 v =>
      have h' : buf.drop o = toBytes 2 (MProp.getByteStringSize ⟨nm, .i64 v⟩) ++
          (toBytes 1 kTypeInt64 ++ (nm ++ (0 :: (toBytes 8 v ++ rest)))) := by
        simpa [propBytes, Val.tagByte, Val.payloadBytes, List.append_assoc] using h
      obtain ⟨e1, e2, e3, d3⟩ := readPropPieces oob hnm h'
      obtain ⟨e4, d4⟩ := extractFixed_of_drop oob (w := 8) (by omega) d3
      have hv8 : v % 256 ^ 8 = v := Nat.mod_eq_of_lt (by
        have : (256 : Nat) ^ 8 = 2 ^ 64 := by norm_num
        rw [this]
        exact hval)
      rw [hv8] at e4
      norm_num [kTypeInt64] at e2
      constructor
      · simp only [readProp]
        rw [e1]
        simp only []
        rw [e2]
        simp only []
        rw [e3]
        simp only []
        rw [if_neg (by norm_num [kTypeInt32]), if_pos (by norm_num [kTypeInt64] : (2 : Nat) = kTypeInt64), e4]
        simp [MProp.getByteStringSize, Val.payloadSize]
        omega
      · have : o + (MProp.getByteStringSize ⟨nm, .i64 v⟩) = o + 4 + nm.length + 8 := by
          simp [MProp.getByteStringSize, Val.payloadSize]
          omega
        rw [this]
        exact d4
  | dbl v =>
      have h' : buf.drop o = toBytes 2 (MProp.getByteStringSize ⟨nm, .dbl v⟩) ++
          (toBytes 1 kTypeDouble ++ (nm ++ (0 :: (toBytes 8 v ++ rest)))) := by
        simpa [propBytes, Val.tagByte, Val.payloadBytes, List.append_assoc] using h
      obtain ⟨e1, e2, e3, d3⟩ := readPropPieces oob hnm h'
      obtain ⟨e4, d4⟩ := extractFixed_of_drop oob (w := 8) (by omega) d3
      have hv8 : v % 256 ^ 8 = v := Nat.mod_eq_of_lt (by
        have : (256 : Nat) ^ 8 = 2 ^ 64 := by norm_num
        rw [this]
        exact hval)
      rw [hv8] at e4
      norm_num [kTypeDouble] at e2
      constructor
      · simp only [readProp]
        rw [e1]
        simp only []
        rw [e2]
        simp only []
        rw [e3]
        simp only []
        rw [if_neg (by norm_num [kTypeInt32]), if_neg (by norm_num [kTypeInt64]),
          if_pos (by norm_num [kTypeDouble] : (3 : Nat) = kTypeDouble), e4]
        simp [MProp.getByteStringSize, Val.payloadSize]
        omega
      · have : o + (MProp.getByteStringSize ⟨nm, .dbl v⟩) = o + 4 + nm.length + 8 := by
          simp [MProp.getByteStringSize, Val.payloadSize]
          omega
        rw [this]
        exact d4
  | rate x y =>
      have h' : buf.drop o = toBytes 2 (MProp.getByteStringSize ⟨nm, .rate x y⟩) ++
          (toBytes 1 kTypeRate ++ (nm ++ (0 :: (toBytes 8 x ++ (toBytes 8 y ++ rest))))) := by
        simpa [propBytes, Val.tagByte, Val.payloadBytes, List.append_assoc] using h
      obtain ⟨e1, e2, e3, d3⟩ := readPropPieces oob hnm h'
      obtain ⟨e4, d4⟩ := extractFixed_of_drop oob (w := 8) (by omega) d3
      obtain ⟨e5, d5⟩ := extractFixed_of_drop oob (w := 8) (by omega) d4
      have hx : x % 256 ^ 8 = x := Nat.mod_eq_of_lt (by
        have : (256 : Nat) ^ 8 = 2 ^ 64 := by norm_num
        rw [this]
        exact hval.1)
      have hy : y % 256 ^ 8 = y := Nat.mod_eq_of_lt (by
        have : (256 : Nat) ^ 8 = 2 ^ 64 := by norm_num
        rw [this]
        exact hval.2)
      rw [hx] at e4
      rw [hy] at e5
      norm_num [kTypeRate] at e2
      constructor
      · simp only [readProp]
        rw [e1]
        simp only []
        rw [e2]
        simp only []
        rw [e3]
        simp only []
        rw [if_neg (by norm_num [kTypeInt32]), if_neg (by norm_num [kTypeInt64]),
          if_neg (by norm_num [kTypeDouble]), if_pos (by norm_num [kTypeRate] : (5 : Nat) = kTypeRate), e4]
        simp only []
        rw [e5]
        simp [MProp.getByteStringSize, Val.payloadSize]
        omega
      · have : o + (MProp.getByteStringSize ⟨nm, .rate x y⟩) =
            o + 4 + nm.length + 8 + 8 := by
          simp [MProp.getByteStringSize, Val.payloadSize]
          omega
        rw [this]
        exact d5
  | str s =>
      have h' : buf.drop o = toBytes 2 (MProp.getByteStringSize ⟨nm, .str s⟩) ++
          (toBytes 1 kTypeCString ++ (nm ++ (0 :: (s ++ (0 :: rest))))) := by
        simpa [propBytes, Val.tagByte, Val.payloadBytes, List.append_assoc] using h
      obtain ⟨e1, e2, e3, d3⟩ := readPropPieces oob hnm h'
      obtain ⟨e4, d4⟩ := extractCString_of_drop oob d3 hval
      norm_num [kTypeCString] at e2
      constructor
      · simp only [readProp]
        rw [e1]
        simp only []
        rw [e2]
        simp only []
        rw [e3]
        simp only []
        rw [if_neg (by norm_num [kTypeInt32]), if_neg (by norm_num [kTypeInt64]),
          if_neg (by norm_num [kTypeDouble]), if_neg (by norm_num [kTypeRate]),
          if_pos (by norm_num [kTypeCString] : (4 : Nat) = kTypeCString), e4]
        simp [MProp.getByteStringSize, Val.payloadSize]
        omega
      · have : o + (MProp.getByteStringSize ⟨nm, .str s⟩) =
            o + 4 + nm.length + s.length + 1 := by
          simp [MProp.getByteStringSize, Val.payloadSize]
          omega
        rw [this]
        have a3 : o + 4 + nm.length + s.length + 1 = o + 4 + nm.length + s.length + 1 := rfl
        exact (by
          have := d4
          have a4 : o + 4 + nm.length + s.length + 1 = o + 4 + nm.length + s.length + 1 := rfl
          simpa using this)
  | none => exact absurd rfl hnn

theorem readProps_of_drop {buf : List Nat} (oob : Nat → Nat) :
    ∀ (ps : List MProp) (o : Nat) (acc : List MProp) (rest : List Nat),
      buf.drop o = propsBytes ps ++ rest →
      (∀ p ∈ ps, p.wf ∧ p.value ≠ .none) →
      readProps buf oob ps.length o acc =
        .ok (acc ++ ps, o + (propsBytes ps).length) := by
  intro ps
  induction ps with
  | nil =>
      intro o acc rest h hw
      simp [readProps, propsBytes]
  | cons p ps ih =>
      intro o acc rest h hw
      have h' : buf.drop o = propBytes p ++ (propsBytes ps ++ rest) := by
        simpa [propsBytes, List.append_assoc] using h
      obtain ⟨e1, d1⟩ :=
        readProp_of_drop oob (hw p (by simp)).1 (hw p (by simp)).2 h'
      show readProps buf oob (ps.length + 1) o acc = _
      simp only [readProps]
      rw [e1]
      simp only []
      rw [ih (o + p.getByteStringSize) (acc ++ [p]) rest d1
        (fun q hq => hw q (by simp [hq]))]
      simp only [Except.ok.injEq, Prod.mk.injEq, propsBytes, List.length_append,
        propBytes_length, List.append_assoc, List.singleton_append]
      exact ⟨by trivial, by omega⟩

theorem readFromByteString_encodeBytesAt (it it0 : Item) (oob : Nat → Nat)
    {size : Nat} (hwfm : it.wfm) (hnn : ∀ p ∈ it.props, p.value ≠ .none)
    (h : it.byteStringSizeE = .ok size) :
    Item.readFromByteString it0 (encodeBytesAt it size) oob =
      .ok { it0 with key := it.key, pid := it.pid, uid := it.uid,
                     timestamp := it.timestamp,
                     props := it0.props ++ it.props } := by
  obtain ⟨hkey, hpid, huid, hts, hcnt, hpwf⟩ := hwfm
  by_cases hk : it.key.length + 1 > 65535
  · rw [Item.byteStringSizeE, if_pos hk] at h
    exact absurd h (by simp)
  rw [Item.byteStringSizeE, if_neg hk] at h
  have hinit : it.headerSize + 4 < 2 ^ 32 := by
    simp [Item.headerSize]
    omega
  obtain ⟨hsz, hps, hlt⟩ := accumSize_ok h hinit
  rw [Item.headerSize] at hsz
  have hlen : (encodeBytesAt it size).length = size :=
    (writeToByteString_ok it (by rw [Item.byteStringSizeE, if_neg hk]; exact h)).2
  have h232 : (256 : Nat) ^ 4 = 2 ^ 32 := by norm_num
  have h216 : (256 : Nat) ^ 2 = 2 ^ 16 := by norm_num
  have h264 : (256 : Nat) ^ 8 = 2 ^ 64 := by norm_num
  have hB : (encodeBytesAt it size).drop 0 =
      toBytes 4 size ++ (toBytes 4 it.headerSize ++ (toBytes 2 0 ++
        (toBytes 2 (it.key.length + 1) ++ (it.key ++ (0 ::
          (toBytes 4 it.pid ++ (toBytes 4 it.uid ++ (toBytes 8 it.timestamp ++
            (toBytes 4 it.props.length ++ propsBytes it.props))))))))) := by
    simp [encodeBytesAt, headBytes, List.append_assoc]
  obtain ⟨e1, d1⟩ := extractFixed_of_drop oob (w := 4) (by omega) hB
  obtain ⟨e2, d2⟩ := extractFixed_of_drop oob (w := 4) (by omega) d1
  obtain ⟨e3, d3⟩ := extractFixed_of_drop oob (w := 2) (by omega) d2
  obtain ⟨e4, d4⟩ := extractFixed_of_drop oob (w := 2) (by omega) d3
  norm_num at e1 e2 e3 e4 d1 d2 d3 d4
  norm_num at hpid huid hts hcnt hlt
  obtain ⟨e5, d5⟩ := extractCString_of_drop oob d4 hkey
  obtain ⟨e6, d6⟩ := extractFixed_of_drop oob (w := 4) (by omega) d5
  obtain ⟨e7, d7⟩ := extractFixed_of_drop oob (w := 4) (by omega) d6
  obtain ⟨e8, d8⟩ := extractFixed_of_drop oob (w := 8) (by omega) d7
  norm_num at e5 e6 e7 e8 d5 d6 d7 d8
  rw [Nat.mod_eq_of_lt (by omega : size < 4294967296)] at e1
  rw [Nat.mod_eq_of_lt
    (by rw [Item.headerSize]; omega : it.headerSize < 4294967296)] at e2
  rw [Nat.mod_eq_of_lt (by omega : it.key.length + 1 < 65536)] at e4
  rw [Nat.mod_eq_of_lt (by omega : it.pid < 4294967296)] at e6
  rw [Nat.mod_eq_of_lt (by omega : it.uid < 4294967296)] at e7
  rw [Nat.mod_eq_of_lt (by omega : it.timestamp < 18446744073709551616)] at e8
  have hoff : 12 + it.key.length + 1 + 4 + 4 + 8 = it.headerSize := by
    rw [Item.headerSize]
    omega
  have d8' : (encodeBytesAt it size).drop it.headerSize =
      toBytes 4 it.props.length ++ (propsBytes it.props ++ []) := by
    rw [← hoff]
    simpa using d8
  obtain ⟨e9, d9⟩ := extractFixed_of_drop oob (w := 4) (by omega) d8'
  norm_num at e9 d9
  rw [Nat.mod_eq_of_lt (by omega : it.props.length < 4294967296)] at e9
  have e10 := readProps_of_drop oob it.props (it.headerSize + 4) it0.props []
    (by simpa using d9) (fun p hp => ⟨hpwf p hp, hnn p hp⟩)
  rw [List.drop_zero] at hB
  unfold Item.readFromByteString
  rw [e1]
  simp only []
  rw [e2]
  simp only []
  rw [e3]
  simp only []
  rw [e4]
  simp only []
  rw [e5]
  simp only []
  rw [e6]
  simp only []
  rw [e7]
  simp only []
  rw [e8]
  simp only []
  rw [if_neg (by
    push_neg
    refine ⟨by omega, rfl, by rw [Item.headerSize]; omega⟩)]
  rw [if_neg (by rw [Item.headerSize]; omega)]
  rw [e9]
  simp only []
  rw [e10]

/-! ## Claim C1 -/

/-- Claim C1 (amended): for every machine-representable record whose
properties all have encodable types (Int32, Int64, Double, Rate,
CString — not None), decoding the byte-codec encoding into any
destination record yields the destination updated with the source's
key, pid, uid, timestamp, and the source's properties (names, types and
values equal, deep string equality) appended to the destination's
store.  The byte codec does not carry `pkgName` or `pkgVersionCode`,
and `None`-typed properties do not round-trip (they are written with
the CString type code and no payload). -/
theorem c1_byteString_roundtrip (it it0 : Item) (oob : Nat → Nat)
    (buf : List Nat) (hwfm : it.wfm)
    (hnn : ∀ p ∈ it.props, p.value ≠ .none)
    (henc : it.writeToByteString = .ok buf) :
    Item.readFromByteString it0 buf oob =
      .ok { it0 with key := it.key, pid := it.pid, uid := it.uid,
                     timestamp := it.timestamp,
                     props := it0.props ++ it.props } := by
  cases hsz : it.byteStringSizeE with
  | error e =>
      rw [writeToByteString_err it hsz] at henc
      exact absurd henc (by simp)
  | ok size =>
      rw [(writeToByteString_ok it hsz).1] at henc
      have hbuf : buf = encodeBytesAt it size := (Except.ok.inj henc).symm
      subst hbuf
      exact readFromByteString_encodeBytesAt it it0 oob hwfm hnn hsz

/-- Claim C1, counterexample to the claim as stated: the record
`c1NoneItem` with one `None`-typed property encodes successfully, but
decoding the encoding fails (in any memory environment in which the
byte after the buffer is non-zero; with a zero byte there the decode
instead yields a CString-typed property): the `none_t` encoder writes
the `kTypeCString` type code with no payload. -/
theorem c1_roundtrip_counterexample :
    c1NoneItem.writeToByteString = .ok (encodeBytes c1NoneItem) ∧
      Item.readFromByteString ⟨[], 0, 0, [], 0, 0, []⟩
        (encodeBytes c1NoneItem) (fun _ => 1) =
        .error .invalidOperation := by
  constructor <;> rfl

/-- Claim C1, witness: the amended round-trip theorem applied to a
concrete record with one property of each encodable type. -/
theorem c1_roundtrip_witness :
    Item.readFromByteString ⟨[], 0, 0, [], 0, 0, []⟩
      (encodeBytes c1WfItem) (fun _ => 1) =
      .ok ⟨[107], 1, 2, [], 0, 3,
        [⟨[97], .i32 7⟩, ⟨[98], .str [99]⟩, ⟨[100], .rate 5 6⟩,
         ⟨[101], .i64 8⟩, ⟨[102], .dbl 9⟩]⟩ :=
  c1_byteString_roundtrip c1WfItem ⟨[], 0, 0, [], 0, 0, []⟩ (fun _ => 1)
    (encodeBytes c1WfItem) (by decide) (by decide) (by rfl)

/-! ## Claim C9 -/

/-- Claim C9: byte-codec encoding either fails during the
size-computation phase — before any buffer is allocated, returning that
phase's error with no buffer observable — or returns a buffer whose
length equals the computed total size exactly: the write cursor, after
writing all fields left to right, lands exactly on the end of the
allocated region. -/
theorem c9_encode_all_or_nothing (it : Item) :
    (∀ e : Status, it.writeToByteString = .error e →
        it.byteStringSizeE = .error e) ∧
    (∀ buf : List Nat, it.writeToByteString = .ok buf →
        it.byteStringSizeE = .ok buf.length) := by
  cases hsz : it.byteStringSizeE with
  | error e =>
      rw [writeToByteString_err it hsz]
      constructor
      · intro e1 he
        cases he
        rfl
      · intro buf hb
        exact absurd hb (by simp)
  | ok size =>
      obtain ⟨hw, hl⟩ := writeToByteString_ok it hsz
      rw [hw]
      constructor
      · intro e1 he
        exact absurd he (by simp)
      · intro buf hb
        have hbuf : buf = encodeBytesAt it size := (Except.ok.inj hb).symm
        subst hbuf
        rw [hl]

/-- Claim C9, witness: a concrete successful encode whose buffer length
equals the computed size. -/
theorem c9_encode_witness :
    Item.byteStringSizeE ⟨[107], 1, 2, [], 0, 3, [⟨[97], .i32 7⟩]⟩ =
      .ok 43 :=
  (c9_encode_all_or_nothing ⟨[107], 1, 2, [], 0, 3, [⟨[97], .i32 7⟩]⟩).2
    (encodeBytesAt ⟨[107], 1, 2, [], 0, 3, [⟨[97], .i32 7⟩]⟩ 43)
    (by exact rfl)

/-! ## Claim C2 -/

/-- Claim C2, counterexample to the claim as stated: a property whose
name is exactly 65535 bytes long does not encode successfully — the
encoder rejects it with `INVALID_OPERATION` during the size phase,
because the whole property record (2 + 1 + 65535 + 1 + 4 bytes) exceeds
the 16-bit record-length field. -/
theorem c2_overflow_counterexample :
    (⟨[], 0, 0, [], 0, 0,
        [⟨List.replicate 65535 97, .i32 0⟩]⟩ : Item).writeToByteString =
      .error .invalidOperation := by
  have hgen : ∀ nm : List Nat,
      (⟨nm, Val.i32 0⟩ : MProp).getByteStringSize = nm.length + 8 := by
    intro nm
    simp [MProp.getByteStringSize, Val.payloadSize]
    omega
  apply writeToByteString_err
  rw [Item.byteStringSizeE, if_neg (by norm_num)]
  show accumSize [⟨List.replicate 65535 97, .i32 0⟩] _ = _
  rw [accumSize, if_pos (by rw [hgen, List.length_replicate]; norm_num)]

/-- Claim C2 (amended): the byte-codec overflow boundary is on the
whole property record, not on the name or string value alone: a record
`recordLength = 2 + 1 + nameLen + 1 + payload` of at most 65535 bytes
encodes successfully — with the name and value written in full, no
truncation — and one above 65535 bytes fails with `INVALID_OPERATION`.
For an Int32-typed property the name boundary is 65527 bytes; for a
CString value under an empty name the value boundary is 65530 bytes. -/
theorem c2_overflow_boundary :
    (∀ nm : List Nat, nm.length + 8 ≤ 65535 →
      (⟨[], 0, 0, [], 0, 0, [⟨nm, .i32 0⟩]⟩ : Item).writeToByteString =
        .ok (encodeBytesAt ⟨[], 0, 0, [], 0, 0, [⟨nm, .i32 0⟩]⟩
          (41 + nm.length))) ∧
    (∀ nm : List Nat, nm.length + 8 > 65535 →
      (⟨[], 0, 0, [], 0, 0, [⟨nm, .i32 0⟩]⟩ : Item).writeToByteString =
        .error .invalidOperation) ∧
    (∀ s : List Nat, s.length + 5 ≤ 65535 →
      (⟨[], 0, 0, [], 0, 0, [⟨[], .str s⟩]⟩ : Item).writeToByteString =
        .ok (encodeBytesAt ⟨[], 0, 0, [], 0, 0, [⟨[], .str s⟩]⟩
          (38 + s.length))) ∧
    (∀ s : List Nat, s.length + 5 > 65535 →
      (⟨[], 0, 0, [], 0, 0, [⟨[], .str s⟩]⟩ : Item).writeToByteString =
        .error .invalidOperation) := by
  have hsz32 : ∀ nm : List Nat,
      (⟨nm, Val.i32 0⟩ : MProp).getByteStringSize = nm.length + 8 := by
    intro nm
    simp [MProp.getByteStringSize, Val.payloadSize]
    omega
  have hszs : ∀ s : List Nat,
      (⟨[], Val.str s⟩ : MProp).getByteStringSize = s.length + 5 := by
    intro s
    simp [MProp.getByteStringSize, Val.payloadSize]
    omega
  refine ⟨?_, ?_, ?_, ?_⟩
  · intro nm h
    refine (writeToByteString_ok _ ?_).1
    rw [Item.byteStringSizeE, if_neg (by norm_num)]
    show accumSize [⟨nm, .i32 0⟩] ((28 + (0 + 1)) + 4) = _
    rw [accumSize, if_neg (by rw [hsz32]; omega),
      if_neg (by rw [hsz32]; omega), accumSize]
    rw [hsz32]
    congr 1
    omega
  · intro nm h
    apply writeToByteString_err
    rw [Item.byteStringSizeE, if_neg (by norm_num)]
    show accumSize [⟨nm, .i32 0⟩] _ = _
    rw [accumSize, if_pos (by rw [hsz32]; omega)]
  · intro s h
    refine (writeToByteString_ok _ ?_).1
    rw [Item.byteStringSizeE, if_neg (by norm_num)]
    show accumSize [⟨[], .str s⟩] ((28 + (0 + 1)) + 4) = _
    rw [accumSize, if_neg (by rw [hszs]; omega),
      if_neg (by rw [hszs]; omega), accumSize]
    rw [hszs]
    congr 1
    omega
  · intro s h
    apply writeToByteString_err
    rw [Item.byteStringSizeE, if_neg (by norm_num)]
    show accumSize [⟨[], .str s⟩] _ = _
    rw [accumSize, if_pos (by rw [hszs]; omega)]

/-- Claim C2, witness: a small name encodes in full, and a name one
byte beyond the record boundary (65528 bytes, record length 65536) is
rejected. -/
theorem c2_overflow_boundary_witness :
    (⟨[], 0, 0, [], 0, 0, [⟨[65], .i32 0⟩]⟩ : Item).writeToByteString =
      .ok (encodeBytesAt ⟨[], 0, 0, [], 0, 0, [⟨[65], .i32 0⟩]⟩ 42) ∧
    (⟨[], 0, 0, [], 0, 0,
        [⟨List.replicate 65528 97, .i32 0⟩]⟩ : Item).writeToByteString =
      .error .invalidOperation :=
  ⟨c2_overflow_boundary.1 [65] (by norm_num),
   c2_overflow_boundary.2.1 (List.replicate 65528 97)
     (by rw [List.length_replicate]; norm_num)⟩

/-! ## Property-store lemmas -/

theorem getLastD_indep {l : List MProp} (h : l ≠ []) (x y : MProp) :
    l.getLastD x = l.getLastD y := by
  cases l with
  | nil => exact absurd rfl h
  | cons b t => rw [List.getLastD_cons, List.getLastD_cons]

theorem removeAt_length {ps : List MProp} {i : Nat} (h : i < ps.length) :
    (removeAt ps i).length + 1 = ps.length := by
  simp [removeAt, List.length_dropLast, List.length_set]
  omega

theorem removeAt_perm : ∀ (ps : List MProp) (i : Nat), i < ps.length →
    (removeAt ps i).Perm (ps.eraseIdx i)
  | [], i, h => by simp at h
  | a :: rest, 0, h => by
      cases rest with
      | nil => simp [removeAt, List.eraseIdx]
      | cons b t =>
          unfold removeAt
          rw [List.getLastD_cons, List.set_cons_zero, List.eraseIdx_cons_zero,
            List.dropLast_cons_of_ne_nil (by simp)]
          have hy : (b :: t).getLastD a = (b :: t).getLast (by simp) := by
            rw [List.getLastD_cons, List.getLast_eq_getLastD]
          rw [hy]
          exact ((List.perm_append_singleton _ _).symm).trans
            (by rw [List.dropLast_append_getLast])
  | a :: rest, i + 1, h => by
      have hr : rest ≠ [] := by
        intro he
        subst he
        simp at h
      have hlt : i < rest.length := by
        simp only [List.length_cons] at h
        omega
      unfold removeAt
      rw [List.getLastD_cons, List.set_cons_succ, List.eraseIdx_cons_succ,
        List.dropLast_cons_of_ne_nil (by
          intro he
          have hc := congrArg List.length he
          simp only [List.length_set, List.length_nil] at hc
          omega)]
      rw [getLastD_indep hr a defaultProp]
      exact (removeAt_perm rest i hlt).cons a

theorem findIdxName_le : ∀ (ps : List MProp) (n : List Nat),
    findIdxName ps n ≤ ps.length
  | [], _ => Nat.le_refl 0
  | p :: ps, n => by
      unfold findIdxName
      split
      · simp
      · have := findIdxName_le ps n
        simp
        omega

theorem findIdxName_not_found : ∀ {ps : List MProp} {n : List Nat},
    (∀ q ∈ ps, q.name ≠ n) →
    findIdxName ps n = ps.length ∧ findPropL ps n = Option.none
  | [], _, _ => ⟨rfl, rfl⟩
  | p :: ps, n, h => by
      have hp : p.name ≠ n := h p (by simp)
      have ih := findIdxName_not_found
        (fun q hq => h q (List.mem_cons_of_mem p hq))
      unfold findIdxName findPropL
      rw [if_neg hp, if_neg hp]
      simp [ih.1, ih.2]

theorem findIdxName_found : ∀ (ps : List MProp) (n : List Nat),
    findIdxName ps n < ps.length →
    ∃ u p v, ps = u ++ p :: v ∧ u.length = findIdxName ps n ∧ p.name = n ∧
      findPropL ps n = some p ∧ ∀ q ∈ u, q.name ≠ n
  | [], n, h => by simp [findIdxName] at h
  | p :: ps, n, h => by
      by_cases hp : p.name = n
      · exact ⟨[], p, ps, by simp, by simp [findIdxName, hp], hp,
          by simp [findPropL, hp], by simp⟩
      · have h' : findIdxName ps n < ps.length := by
          unfold findIdxName at h
          rw [if_neg hp] at h
          simp at h
          omega
        obtain ⟨u, q, v, he, hu, hq, hf, hn⟩ := findIdxName_found ps n h'
        refine ⟨p :: u, q, v, by simp [he], ?_, hq, ?_, ?_⟩
        · unfold findIdxName
          rw [if_neg hp]
          simp [hu]
        · unfold findPropL
          rw [if_neg hp]
          exact hf
        · intro r hr
          rcases List.mem_cons.mp hr with rfl | hr
          · exact hp
          · exact hn r hr

theorem findIdxName_lt_of_mem : ∀ {ps : List MProp} {n : List Nat} {p : MProp},
    p ∈ ps → p.name = n → findIdxName ps n < ps.length
  | [], _, _, hp, _ => by simp at hp
  | q :: ps, n, p, hp, hn => by
      unfold findIdxName
      by_cases hq : q.name = n
      · rw [if_pos hq]
        simp
      · rw [if_neg hq]
        rcases List.mem_cons.mp hp with rfl | hp2
        · exact absurd hn hq
        · have := findIdxName_lt_of_mem hp2 hn
          simp
          omega

theorem findPropL_mem : ∀ {ps : List MProp} {n : List Nat} {p : MProp},
    findPropL ps n = some p → p ∈ ps ∧ p.name = n
  | [], n, p, h => by simp [findPropL] at h
  | q :: ps, n, p, h => by
      unfold findPropL at h
      by_cases hq : q.name = n
      · rw [if_pos hq] at h
        cases h
        exact ⟨by simp, hq⟩
      · rw [if_neg hq] at h
        have ih := findPropL_mem h
        exact ⟨by simp [ih.1], ih.2⟩

theorem eraseIdx_append_cons : ∀ (u : List MProp) (p : MProp) (v : List MProp),
    (u ++ p :: v).eraseIdx u.length = u ++ v
  | [], p, v => by simp
  | a :: u, p, v => by
      simp only [List.cons_append, List.length_cons, List.eraseIdx_cons_succ]
      rw [eraseIdx_append_cons u p v]

/-! ## Claim C7 -/

/-- Claim C7: when the store holds a property `p` named `n`,
`removeProp n` returns `true` and yields a store of size one less
holding exactly the original multiset of properties minus `p` (adding
`p` back is a permutation of the original store; order may differ);
when no property is named `n`, it returns `false` and leaves the item
unchanged. -/
theorem c7_removeProp_spec (it : Item) (n : List Nat) (p : MProp) :
    (it.findProp n = some p →
      (it.removeProp n).2 = true ∧ p.name = n ∧
      (it.removeProp n).1.props.length + 1 = it.props.length ∧
      (p :: (it.removeProp n).1.props).Perm it.props) ∧
    (it.findProp n = Option.none → it.removeProp n = (it, false)) := by
  constructor
  · intro hf
    have hmem := findPropL_mem hf
    have hlt : it.findPropIndex n < it.props.length :=
      findIdxName_lt_of_mem hmem.1 hmem.2
    obtain ⟨u, q, v, he, hu, hq, hfq, hn⟩ :=
      findIdxName_found it.props n hlt
    have hpq : q = p := by
      simp only [Item.findProp] at hf
      rw [hfq] at hf
      exact Option.some.inj hf
    subst hpq
    have hrem : it.removeProp n =
        ({ it with props := removeAt it.props (it.findPropIndex n) }, true) := by
      unfold Item.removeProp
      rw [if_pos hlt]
    refine ⟨by rw [hrem], hq, ?_, ?_⟩
    · rw [hrem]
      exact removeAt_length hlt
    · rw [hrem]
      have h1 : (removeAt it.props (it.findPropIndex n)).Perm
          (it.props.eraseIdx (it.findPropIndex n)) :=
        removeAt_perm it.props (it.findPropIndex n) hlt
      have h2 : it.props.eraseIdx (it.findPropIndex n) = u ++ v := by
        simp only [Item.findPropIndex] at hu ⊢
        rw [← hu, he, eraseIdx_append_cons]
      refine (h1.cons q).trans ?_
      rw [h2, he]
      exact List.perm_middle.symm
  · intro hf
    have hnone : ¬ it.findPropIndex n < it.props.length := by
      intro hlt
      obtain ⟨u, q, v, _, _, _, hfq, _⟩ := findIdxName_found it.props n hlt
      simp only [Item.findProp] at hf
      rw [hfq] at hf
      cases hf
    unfold Item.removeProp
    rw [if_neg hnone]

/-- Claim C7, witness: removing the middle of three properties
swap-removes it (the last property moves into its slot) and reports
`true`. -/
theorem c7_removeProp_witness :
    ((⟨[], 0, 0, [], 0, 0,
        [⟨[97], .i32 1⟩, ⟨[98], .i32 2⟩, ⟨[99], .i32 3⟩]⟩ : Item).removeProp
          [98]).2 = true ∧
    (⟨[98], Val.i32 2⟩ : MProp).name = [98] ∧
    ((⟨[], 0, 0, [], 0, 0,
        [⟨[97], .i32 1⟩, ⟨[98], .i32 2⟩, ⟨[99], .i32 3⟩]⟩ : Item).removeProp
          [98]).1.props.length + 1 = 3 ∧
    ((⟨[98], Val.i32 2⟩ : MProp) ::
      ((⟨[], 0, 0, [], 0, 0,
        [⟨[97], .i32 1⟩, ⟨[98], .i32 2⟩, ⟨[99], .i32 3⟩]⟩ : Item).removeProp
          [98]).1.props).Perm
      [⟨[97], .i32 1⟩, ⟨[98], .i32 2⟩, ⟨[99], .i32 3⟩] :=
  (c7_removeProp_spec ⟨[], 0, 0, [], 0, 0,
      [⟨[97], .i32 1⟩, ⟨[98], .i32 2⟩, ⟨[99], .i32 3⟩]⟩ [98]
    ⟨[98], .i32 2⟩).1 (by rfl)

/-! ## Filter lemmas -/

theorem removeAt_names_nodup {ps : List MProp} {i : Nat} (h : i < ps.length)
    (hnd : (ps.map MProp.name).Nodup) :
    ((removeAt ps i).map MProp.name).Nodup := by
  rw [((removeAt_perm ps i h).map MProp.name).nodup_iff]
  exact List.Nodup.sublist ((List.eraseIdx_sublist ps i).map MProp.name) hnd

theorem filterGo_spec : ∀ (attrs : List (List Nat)) (ps : List MProp) (z : Nat),
    (ps.map MProp.name).Nodup →
    (filterGo attrs ps z).1.Perm
        (ps.filter (fun p => decide (p.name ∉ attrs))) ∧
      (filterGo attrs ps z).2 + (filterGo attrs ps z).1.length =
        z + ps.length
  | [], ps, z, _ => by
      unfold filterGo
      constructor
      · rw [List.filter_eq_self.mpr (fun q _ => by simp)]
      · rfl
  | a :: rest, ps, z, hnd => by
      by_cases hfound : findIdxName ps a < ps.length
      · obtain ⟨u, p, v, he, hu, hpn, _, hun⟩ := findIdxName_found ps a hfound
        have hvn : ∀ q ∈ v, q.name ≠ a := by
          intro q hq hqa
          have hsub : ((p :: v).map MProp.name).Nodup :=
            List.Nodup.sublist
              ((by rw [he]; exact List.sublist_append_right u (p :: v) :
                (p :: v).Sublist ps).map MProp.name) hnd
          simp only [List.map_cons, List.nodup_cons] at hsub
          exact hsub.1 (by rw [hpn, ← hqa]; exact List.mem_map_of_mem MProp.name hq)
        have hnd' := removeAt_names_nodup hfound hnd
        have ih := filterGo_spec rest (removeAt ps (findIdxName ps a)) (z + 1) hnd'
        unfold filterGo
        rw [if_pos hfound]
        have herase : ps.eraseIdx (findIdxName ps a) = u ++ v := by
          rw [← hu, he, eraseIdx_append_cons]
        constructor
        · refine ih.1.trans ?_
          refine ((removeAt_perm ps _ hfound).filter _).trans ?_
          rw [herase, he, List.filter_append, List.filter_append,
            List.filter_cons_of_neg (by simp [hpn]),
            List.filter_congr (l := u)
              (q := fun p => decide (p.name ∉ a :: rest))
              (fun q hq => by simp [List.mem_cons, hun q hq]),
            List.filter_congr (l := v)
              (q := fun p => decide (p.name ∉ a :: rest))
              (fun q hq => by simp [List.mem_cons, hvn q hq])]
        · have hlen := removeAt_length hfound
          omega
      · have hnone : ∀ q ∈ ps, q.name ≠ a :=
          fun q hq hqa => hfound (findIdxName_lt_of_mem hq hqa)
        have ih := filterGo_spec rest ps z hnd
        unfold filterGo
        rw [if_neg hfound]
        refine ⟨ih.1.trans ?_, ih.2⟩
        rw [List.filter_congr
          (q := fun p => decide (p.name ∉ a :: rest))
          (fun q hq => by simp [List.mem_cons, hnone q hq])]

theorem take_set_eq (l : List MProp) (j : Nat) (y : MProp) :
    (l.set j y).take j = l.take j := by
  apply List.ext_getElem
  · simp [List.length_take, List.length_set]
  · intro i h1 h2
    rw [List.getElem_take, List.getElem_take]
    refine List.getElem_set_ne ?_ _
    simp [List.length_take] at h1
    omega

theorem drop_set_cons {l : List MProp} {j : Nat} (h : j < l.length)
    (y : MProp) : (l.set j y).drop j = y :: l.drop (j + 1) := by
  rw [List.drop_eq_getElem_cons (by rw [List.length_set]; exact h)]
  congr 1
  · exact List.getElem_set_eq _
  · apply List.ext_getElem
    · simp [List.length_drop, List.length_set]
    · intro i h1 h2
      rw [List.getElem_drop, List.getElem_drop]
      refine List.getElem_set_ne ?_ _
      omega

theorem dropLast_drop_comm (l : List MProp) (j : Nat) :
    (l.drop j).dropLast = l.dropLast.drop j := by
  rw [List.dropLast_eq_take, List.dropLast_eq_take, List.drop_take]
  congr 1
  simp [List.length_drop]
  omega

theorem take_removeAt {ps : List MProp} {j : Nat} (h : j < ps.length) :
    (removeAt ps j).take j = ps.take j := by
  unfold removeAt
  rw [List.dropLast_eq_take, List.take_take, List.length_set,
    show j ⊓ (ps.length - 1) = j from by omega, take_set_eq]

theorem drop_removeAt {ps : List MProp} {j : Nat} (h : j < ps.length) :
    (removeAt ps j).drop j =
      (ps.getLastD defaultProp :: ps.drop (j + 1)).dropLast := by
  unfold removeAt
  rw [← dropLast_drop_comm, drop_set_cons h]

theorem getLastD_append_of_ne_nil {d : List MProp} (h : d ≠ []) :
    ∀ (u : List MProp) (x : MProp), (u ++ d).getLastD x = d.getLastD x
  | [], x => rfl
  | a :: u, x => by
      rw [List.cons_append, List.getLastD_cons,
        getLastD_append_of_ne_nil h u a]
      exact getLastD_indep h a x

theorem cons_getLastD_dropLast_perm {d : List MProp} (h : d ≠ []) (x : MProp) :
    (d.getLastD x :: d.dropLast).Perm d := by
  cases d with
  | nil => exact absurd rfl h
  | cons b t =>
      rw [List.getLastD_cons]
      have hy : t.getLastD b = (b :: t).getLast (by simp) := by
        rw [List.getLast_eq_getLastD]
      rw [hy]
      exact ((List.perm_append_singleton _ _).symm).trans
        (by rw [List.dropLast_append_getLast])

theorem filterNotGoF_spec (attrs : List (List Nat)) :
    ∀ (fuel : Nat) (ps : List MProp) (j z : Nat),
      ps.length - j ≤ fuel →
      (filterNotGoF attrs fuel ps j z).1.Perm
          (ps.take j ++
            (ps.drop j).filter (fun p => decide (p.name ∈ attrs))) ∧
        (filterNotGoF attrs fuel ps j z).2 +
          (filterNotGoF attrs fuel ps j z).1.length = z + ps.length
  | 0, ps, j, z, hf => by
      have hj : ps.length ≤ j := by omega
      unfold filterNotGoF
      rw [List.take_of_length_le hj, List.drop_eq_nil_of_le hj]
      simp
  | fuel + 1, ps, j, z, hf => by
      unfold filterNotGoF
      by_cases hjl : j < ps.length
      · rw [dif_pos hjl]
        by_cases hmem : (ps.get ⟨j, hjl⟩).name ∈ attrs
        · rw [if_pos hmem]
          have ih := filterNotGoF_spec attrs fuel ps (j + 1) z (by omega)
          refine ⟨ih.1.trans ?_, by omega⟩
          have hsplit : List.take (j + 1) ps ++
              List.filter (fun p => decide (p.name ∈ attrs))
                (List.drop (j + 1) ps) =
              List.take j ps ++ ps[j] ::
              List.filter (fun p => decide (p.name ∈ attrs))
                (List.drop (j + 1) ps) := by
            rw [← List.take_concat_get ps j hjl, List.concat_eq_append,
              List.append_assoc, List.singleton_append]
          rw [List.drop_eq_getElem_cons hjl,
            List.filter_cons_of_pos
              (by simp only [List.get_eq_getElem] at hmem; simp [hmem]),
            hsplit]
        · rw [if_neg hmem]
          have hlen := removeAt_length hjl
          have ih := filterNotGoF_spec attrs fuel (removeAt ps j) j (z + 1)
            (by omega)
          refine ⟨ih.1.trans ?_, by omega⟩
          rw [take_removeAt hjl, drop_removeAt hjl]
          refine List.Perm.append_left _ ?_
          rw [List.drop_eq_getElem_cons hjl,
            List.filter_cons_of_neg
              (by simp only [List.get_eq_getElem] at hmem; simp [hmem])]
          by_cases hd : ps.drop (j + 1) = []
          · rw [hd]
            simp
          · rw [List.dropLast_cons_of_ne_nil hd]
            have hy : ps.getLastD defaultProp =
                (ps.drop (j + 1)).getLastD defaultProp := by
              conv =>
                lhs
                rw [← List.take_append_drop (j + 1) ps]
              rw [getLastD_append_of_ne_nil hd]
            rw [hy]
            exact (cons_getLastD_dropLast_perm hd _).filter _
      · rw [dif_neg hjl]
        have hj : ps.length ≤ j := by omega
        rw [List.take_of_length_le hj, List.drop_eq_nil_of_le hj]
        simp

/-! ## Claim C8 -/

/-- Claim C8: on a store with unique names, `filter S` removes exactly
the properties whose names are in `S` — the result is a permutation of
the complement — and `filterNot S` (filterComplement) removes exactly
the properties whose names are not in `S`, leaving only members of `S`;
each returns the count of properties actually removed (count removed
plus surviving length equals the original length).  `filterNot` needs
no uniqueness hypothesis. -/
theorem c8_filter_filterNot (it : Item) (attrs : List (List Nat)) :
    ((it.props.map MProp.name).Nodup →
      (it.filter attrs).1.props.Perm
          (it.props.filter (fun p => decide (p.name ∉ attrs))) ∧
        (it.filter attrs).2 + (it.filter attrs).1.props.length =
          it.props.length) ∧
    ((it.filterNot attrs).1.props.Perm
        (it.props.filter (fun p => decide (p.name ∈ attrs))) ∧
      (it.filterNot attrs).2 + (it.filterNot attrs).1.props.length =
        it.props.length) := by
  constructor
  · intro hnd
    have h := filterGo_spec attrs it.props 0 hnd
    simp only [Item.filter]
    exact ⟨h.1, by have := h.2; omega⟩
  · have h := filterNotGoF_spec attrs it.props.length it.props 0 0 (by omega)
    simp only [Item.filterNot]
    constructor
    · refine h.1.trans ?_
      simp
    · have := h.2
      omega

/-- Claim C8, witness: on the store `{a, b, c}`, `filter {a, c}` leaves
`{b}` and removes 2; `filterNot {a, c}` leaves `{a, c}` and removes
1. -/
theorem c8_filter_filterNot_witness :
    ((⟨[], 0, 0, [], 0, 0,
        [⟨[97], .i32 1⟩, ⟨[98], .i32 2⟩, ⟨[99], .i32 3⟩]⟩ : Item).filter
          [[97], [99]]).1.props.Perm [⟨[98], .i32 2⟩] ∧
    ((⟨[], 0, 0, [], 0, 0,
        [⟨[97], .i32 1⟩, ⟨[98], .i32 2⟩, ⟨[99], .i32 3⟩]⟩ : Item).filter
          [[97], [99]]).2 = 2 ∧
    ((⟨[], 0, 0, [], 0, 0,
        [⟨[97], .i32 1⟩, ⟨[98], .i32 2⟩, ⟨[99], .i32 3⟩]⟩ : Item).filterNot
          [[97], [99]]).1.props.Perm [⟨[97], .i32 1⟩, ⟨[99], .i32 3⟩] ∧
    ((⟨[], 0, 0, [], 0, 0,
        [⟨[97], .i32 1⟩, ⟨[98], .i32 2⟩, ⟨[99], .i32 3⟩]⟩ : Item).filterNot
          [[97], [99]]).2 = 1 := by
  have h := c8_filter_filterNot
    ⟨[], 0, 0, [], 0, 0, [⟨[97], .i32 1⟩, ⟨[98], .i32 2⟩, ⟨[99], .i32 3⟩]⟩
    [[97], [99]]
  have h1 := h.1 (by decide)
  refine ⟨?_, ?_, ?_, ?_⟩
  · have := h1.1
    simpa using this
  · have := h1.2
    have hl : ((⟨[], 0, 0, [], 0, 0,
        [⟨[97], .i32 1⟩, ⟨[98], .i32 2⟩, ⟨[99], .i32 3⟩]⟩ : Item).filter
          [[97], [99]]).1.props.length = 1 := by exact rfl
    have hp3 : (⟨[], 0, 0, [], 0, 0,
        [⟨[97], .i32 1⟩, ⟨[98], .i32 2⟩,
         ⟨[99], .i32 3⟩]⟩ : Item).props.length = 3 := by exact rfl
    rw [hl, hp3] at this
    omega
  · have := h.2.1
    simpa using this
  · have := h.2.2
    have hl : ((⟨[], 0, 0, [], 0, 0,
        [⟨[97], .i32 1⟩, ⟨[98], .i32 2⟩, ⟨[99], .i32 3⟩]⟩ : Item).filterNot
          [[97], [99]]).1.props.length = 2 := by exact rfl
    have hp3 : (⟨[], 0, 0, [], 0, 0,
        [⟨[97], .i32 1⟩, ⟨[98], .i32 2⟩,
         ⟨[99], .i32 3⟩]⟩ : Item).props.length = 3 := by exact rfl
    rw [hl, hp3] at this
    omega

/-! ## Merge lemmas -/

theorem set_append_cons (u : List MProp) (p q : MProp) (v : List MProp) :
    (u ++ p :: v).set u.length q = u ++ q :: v := by
  induction u with
  | nil => simp
  | cons a u ih => simp [List.set_cons_succ, ih]

theorem findPropL_append_cons (u : List MProp) (x : MProp) (v : List MProp)
    (m : List Nat) :
    findPropL (u ++ x :: v) m =
      match findPropL u m with
      | some r => some r
      | Option.none => if x.name = m then some x else findPropL v m := by
  induction u with
  | nil => rfl
  | cons a u ih =>
      by_cases ha : a.name = m
      · simp [findPropL, ha]
      · simp only [List.cons_append, findPropL, if_neg ha]
        exact ih

theorem findPropL_eq_none {ps : List MProp} {n : List Nat}
    (h : ∀ q ∈ ps, q.name ≠ n) : findPropL ps n = Option.none :=
  (findIdxName_not_found h).2

theorem findPropL_not_found_of_idx {ps : List MProp} {n : List Nat}
    (h : ¬ findIdxName ps n < ps.length) :
    findPropL ps n = Option.none :=
  findPropL_eq_none (fun q hq hn => h (findIdxName_lt_of_mem hq hn))

theorem lastNamed_some_name : ∀ {ps : List MProp} {n : List Nat} {q : MProp},
    lastNamed ps n = some q → q.name = n
  | [], n, q, h => by simp [lastNamed] at h
  | p :: ps, n, q, h => by
      unfold lastNamed at h
      cases hl : lastNamed ps n with
      | some r =>
          simp only [hl] at h
          cases h
          exact lastNamed_some_name hl
      | none =>
          simp only [hl] at h
          by_cases hp : p.name = n
          · rw [if_pos hp] at h
            cases h
            exact hp
          · rw [if_neg hp] at h
            cases h

theorem findPropL_set_first {ps : List MProp} {p : MProp}
    (h : findIdxName ps p.name < ps.length) (m : List Nat) :
    findPropL (ps.set (findIdxName ps p.name) p) m =
      if m = p.name then some p else findPropL ps m := by
  obtain ⟨u, r, v, he, hu, hrn, _, hun⟩ := findIdxName_found ps p.name h
  subst he
  rw [← hu, set_append_cons, findPropL_append_cons,
    findPropL_append_cons]
  by_cases hm : m = p.name
  · subst hm
    rw [findPropL_eq_none hun]
    simp [hrn]
  · rw [if_neg hm]
    cases hfu : findPropL u m with
    | some s => simp
    | none =>
        simp only []
        rw [if_neg (fun hc => hm hc.symm),
          if_neg (by rw [hrn]; exact fun hc => hm hc.symm)]

theorem findPropL_append_single (ps : List MProp) (p : MProp) (m : List Nat) :
    findPropL (ps ++ [p]) m =
      match findPropL ps m with
      | some r => some r
      | Option.none => if p.name = m then some p else Option.none := by
  have h := findPropL_append_cons ps p [] m
  simpa [findPropL] using h

theorem mergeProps_cons_skip {t : Item} {p : MProp} {ps : List MProp}
    (h : p.name = []) : mergeProps t (p :: ps) = mergeProps t ps := by
  rw [mergeProps, if_pos h]

theorem mergeProps_cons_set {t : Item} {p : MProp} {ps : List MProp}
    (h1 : p.name ≠ []) (h2 : findIdxName t.props p.name < t.props.length) :
    mergeProps t (p :: ps) =
      mergeProps
        { t with props := t.props.set (findIdxName t.props p.name) p } ps := by
  rw [mergeProps, if_neg h1, if_pos h2]

theorem mergeProps_cons_append {t : Item} {p : MProp} {ps : List MProp}
    (h1 : p.name ≠ []) (h2 : ¬ findIdxName t.props p.name < t.props.length) :
    mergeProps t (p :: ps) =
      mergeProps { t with props := t.props ++ [p] } ps := by
  rw [mergeProps, if_neg h1, if_neg h2]

theorem mergeProps_key : ∀ (t : Item) (ps : List MProp),
    (mergeProps t ps).key = t.key
  | _, [] => rfl
  | t, p :: ps => by
      by_cases h1 : p.name = []
      · rw [mergeProps_cons_skip h1]
        exact mergeProps_key t ps
      · by_cases h2 : findIdxName t.props p.name < t.props.length
        · rw [mergeProps_cons_set h1 h2]
          exact mergeProps_key _ ps
        · rw [mergeProps_cons_append h1 h2]
          exact mergeProps_key _ ps

theorem mergeProps_spec : ∀ (ps : List MProp) (t : Item),
    (∀ m, m ≠ [] → ∀ q, lastNamed ps m = some q →
        findPropL (mergeProps t ps).props m = some q) ∧
    (∀ m, lastNamed ps m = Option.none ∨ m = [] →
        findPropL (mergeProps t ps).props m = findPropL t.props m)
  | [], t => by
      constructor
      · intro m _ q hq
        simp [lastNamed] at hq
      · intro m _
        rfl
  | p :: ps, t => by
      by_cases h1 : p.name = []
      · have heq : mergeProps t (p :: ps) = mergeProps t ps :=
          mergeProps_cons_skip h1
        have ih := mergeProps_spec ps t
        rw [heq]
        constructor
        · intro m hm q hq
          unfold lastNamed at hq
          cases hl : lastNamed ps m with
          | some r =>
              simp only [hl] at hq
              cases hq
              exact ih.1 m hm _ hl
          | none =>
              simp only [hl] at hq
              rw [if_neg (h1 ▸ fun hc => hm hc.symm)] at hq
              cases hq
        · intro m hm
          rcases hm with hm | hm
          · unfold lastNamed at hm
            cases hl : lastNamed ps m with
            | some r =>
                simp only [hl] at hm
                exact Option.noConfusion hm
            | none => exact ih.2 m (Or.inl hl)
          · exact ih.2 m (Or.inr hm)
      · by_cases h2 : findIdxName t.props p.name < t.props.length
        · have heq : mergeProps t (p :: ps) =
              mergeProps
                { t with props := t.props.set (findIdxName t.props p.name) p }
                ps := mergeProps_cons_set h1 h2
          have ih := mergeProps_spec ps
            { t with props := t.props.set (findIdxName t.props p.name) p }
          have hset := findPropL_set_first h2
          rw [heq]
          constructor
          · intro m hm q hq
            unfold lastNamed at hq
            cases hl : lastNamed ps m with
            | some r =>
                simp only [hl] at hq
                cases hq
                exact ih.1 m hm _ hl
            | none =>
                simp only [hl] at hq
                by_cases hp : p.name = m
                · rw [if_pos hp] at hq
                  cases hq
                  rw [ih.2 m (Or.inl hl)]
                  simp only []
                  rw [hset m, if_pos hp.symm]
                · rw [if_neg hp] at hq
                  cases hq
          · intro m hm
            rcases hm with hm | hm
            · unfold lastNamed at hm
              cases hl : lastNamed ps m with
              | some r =>
                  simp only [hl] at hm
                  exact Option.noConfusion hm
              | none =>
                  simp only [hl] at hm
                  have hp : p.name ≠ m := by
                    intro hc
                    rw [if_pos hc] at hm
                    cases hm
                  rw [ih.2 m (Or.inl hl)]
                  simp only []
                  rw [hset m, if_neg (fun hc => hp hc.symm)]
            · subst hm
              rw [ih.2 [] (Or.inr rfl)]
              simp only []
              rw [hset [], if_neg (fun hc => h1 hc.symm)]
        · have heq : mergeProps t (p :: ps) =
              mergeProps { t with props := t.props ++ [p] } ps :=
            mergeProps_cons_append h1 h2
          have ih := mergeProps_spec ps { t with props := t.props ++ [p] }
          have hnone := findPropL_not_found_of_idx h2
          rw [heq]
          constructor
          · intro m hm q hq
            unfold lastNamed at hq
            cases hl : lastNamed ps m with
            | some r =>
                simp only [hl] at hq
                cases hq
                exact ih.1 m hm _ hl
            | none =>
                simp only [hl] at hq
                by_cases hp : p.name = m
                · rw [if_pos hp] at hq
                  cases hq
                  rw [ih.2 m (Or.inl hl)]
                  simp only []
                  rw [findPropL_append_single]
                  rw [hp] at hnone
                  rw [hnone]
                  simp [hp]
                · rw [if_neg hp] at hq
                  cases hq
          · intro m hm
            rcases hm with hm | hm
            · unfold lastNamed at hm
              cases hl : lastNamed ps m with
              | some r =>
                  simp only [hl] at hm
                  exact Option.noConfusion hm
              | none =>
                  simp only [hl] at hm
                  have hp : p.name ≠ m := by
                    intro hc
                    rw [if_pos hc] at hm
                    cases hm
                  rw [ih.2 m (Or.inl hl)]
                  simp only []
                  rw [findPropL_append_single]
                  cases hft : findPropL t.props m with
                  | some s => simp
                  | none => simp [if_neg hp]
            · subst hm
              rw [ih.2 [] (Or.inr rfl)]
              simp only []
              rw [findPropL_append_single]
              cases hft : findPropL t.props [] with
              | some s => simp
              | none => simp [if_neg h1]

/-! ## Claim C6 -/

/-- Claim C6: `merge(target, incoming)` adopts the incoming key exactly
when the target's key is empty; for every non-empty name carried by
`incoming`, the merged record's first property of that name is the last
incoming property so named (copied when absent from the target,
overwritten in place when present — last-writer-wins); names not
carried by `incoming` (and the empty name, which is skipped) look up
exactly as in the target; and no target property's name is ever
removed. -/
theorem c6_merge_spec (t inc : Item) :
    ((t.merge inc).key = if t.key = [] then inc.key else t.key) ∧
    (∀ m, m ≠ [] → ∀ q, lastNamed inc.props m = some q →
        (t.merge inc).findProp m = some q) ∧
    (∀ m, lastNamed inc.props m = Option.none ∨ m = [] →
        (t.merge inc).findProp m = t.findProp m) ∧
    (∀ p ∈ t.props, ∃ r ∈ (t.merge inc).props, r.name = p.name) := by
  have ht0 : (if t.key = [] then { t with key := inc.key } else t).props =
      t.props := by
    split <;> rfl
  have hspec := mergeProps_spec inc.props
    (if t.key = [] then { t with key := inc.key } else t)
  refine ⟨?_, ?_, ?_, ?_⟩
  · rw [Item.merge, mergeProps_key]
    split <;> rfl
  · intro m hm q hq
    simp only [Item.findProp, Item.merge]
    exact hspec.1 m hm q hq
  · intro m hm
    simp only [Item.findProp, Item.merge]
    rw [hspec.2 m hm, ht0]
  · intro p hp
    by_cases hpn : p.name = []
    · have h2 := hspec.2 p.name (Or.inr hpn)
      rw [ht0] at h2
      have hlt : findIdxName t.props p.name < t.props.length :=
        findIdxName_lt_of_mem hp rfl
      obtain ⟨u, r, v, _, _, hrn, hf, _⟩ := findIdxName_found t.props _ hlt
      have : findPropL (t.merge inc).props p.name = some r := by
        simp only [Item.merge]
        rw [h2, hf]
      have hmem := findPropL_mem this
      exact ⟨r, hmem.1, by rw [hmem.2]⟩
    · cases hl : lastNamed inc.props p.name with
      | some q =>
          have h1 := hspec.1 p.name hpn q hl
          have hmem := findPropL_mem (by simpa [Item.merge] using h1)
          exact ⟨q, hmem.1, by rw [hmem.2]⟩
      | none =>
          have h2 := hspec.2 p.name (Or.inl hl)
          rw [ht0] at h2
          have hlt : findIdxName t.props p.name < t.props.length :=
            findIdxName_lt_of_mem hp rfl
          obtain ⟨u, r, v, _, _, hrn, hf, _⟩ := findIdxName_found t.props _ hlt
          have : findPropL (t.merge inc).props p.name = some r := by
            simp only [Item.merge]
            rw [h2, hf]
          have hmem := findPropL_mem this
          exact ⟨r, hmem.1, by rw [hmem.2]⟩

/-- Claim C6, witness: `A.key = ""`, `B.key = "k2"`, `A = {x:1}`,
`B = {x:2, y:3}`: after the merge the key is `"k2"`, `x` is overwritten
to 2, `y` is copied. -/
theorem c6_merge_witness :
    ((⟨[], 0, 0, [], 0, 0, [⟨[120], .i32 1⟩]⟩ : Item).merge
        ⟨[107, 50], 0, 0, [], 0, 0,
          [⟨[120], .i32 2⟩, ⟨[121], .i32 3⟩]⟩).key = [107, 50] ∧
    ((⟨[], 0, 0, [], 0, 0, [⟨[120], .i32 1⟩]⟩ : Item).merge
        ⟨[107, 50], 0, 0, [], 0, 0,
          [⟨[120], .i32 2⟩, ⟨[121], .i32 3⟩]⟩).findProp [120] =
      some ⟨[120], .i32 2⟩ ∧
    ((⟨[], 0, 0, [], 0, 0, [⟨[120], .i32 1⟩]⟩ : Item).merge
        ⟨[107, 50], 0, 0, [], 0, 0,
          [⟨[120], .i32 2⟩, ⟨[121], .i32 3⟩]⟩).findProp [121] =
      some ⟨[121], .i32 3⟩ := by
  have h := c6_merge_spec ⟨[], 0, 0, [], 0, 0, [⟨[120], .i32 1⟩]⟩
    ⟨[107, 50], 0, 0, [], 0, 0, [⟨[120], .i32 2⟩, ⟨[121], .i32 3⟩]⟩
  refine ⟨?_, ?_, ?_⟩
  · have := h.1
    simpa using this
  · exact h.2.1 [120] (by decide) ⟨[120], .i32 2⟩ (by exact rfl)
  · exact h.2.1 [121] (by decide) ⟨[121], .i32 3⟩ (by exact rfl)

/-! ## Uniqueness lemmas -/

theorem nameUnique_set {ps : List MProp} {p : MProp}
    (h : findIdxName ps p.name < ps.length) (hnd : NameUnique ps) :
    NameUnique (ps.set (findIdxName ps p.name) p) := by
  obtain ⟨u, r, v, he, hu, hrn, _, _⟩ := findIdxName_found ps p.name h
  subst he
  rw [← hu, set_append_cons]
  rw [NameUnique, List.pairwise_append] at hnd ⊢
  obtain ⟨h1, h2, h3⟩ := hnd
  rw [List.pairwise_cons] at h2 ⊢
  refine ⟨h1, ⟨?_, h2.2⟩, ?_⟩
  · intro b hb hcb
    have hr := h2.1 b hb (by rw [hrn]; exact hcb)
    rw [← hrn]
    exact hr
  · intro a ha b hb
    rcases List.mem_cons.mp hb with rfl | hbv
    · intro hab
      exact h3 a ha r (by simp) (by rw [hrn]; exact hab)
    · exact h3 a ha b (by simp [hbv])

theorem nameUnique_append {ps : List MProp} {p : MProp}
    (h : ∀ q ∈ ps, q.name ≠ p.name) (hnd : NameUnique ps) :
    NameUnique (ps ++ [p]) := by
  rw [NameUnique, List.pairwise_append]
  exact ⟨hnd, List.pairwise_singleton _ _,
    fun a ha b hb => by
      rw [List.mem_singleton] at hb
      subst hb
      exact fun hab => absurd hab (h a ha)⟩

theorem nameUnique_mergeProps : ∀ (ps : List MProp) (t : Item),
    NameUnique t.props → NameUnique (mergeProps t ps).props
  | [], _, hnd => hnd
  | p :: ps, t, hnd => by
      by_cases h1 : p.name = []
      · rw [mergeProps_cons_skip h1]
        exact nameUnique_mergeProps ps t hnd
      · by_cases h2 : findIdxName t.props p.name < t.props.length
        · rw [mergeProps_cons_set h1 h2]
          exact nameUnique_mergeProps ps _ (nameUnique_set h2 hnd)
        · rw [mergeProps_cons_append h1 h2]
          refine nameUnique_mergeProps ps _ (nameUnique_append ?_ hnd)
          exact fun q hq hqn => h2 (findIdxName_lt_of_mem hq hqn)

/-! ## Claim C3 -/

/-- Claim C3 (amended): the operations that go through find-or-allocate
preserve the invariant that no two properties share the same non-empty
name: `allocateProp` (for any name) and `merge` (for any incoming
record) keep a `NameUnique` store `NameUnique`.  The byte-codec and
parcel decoders, by contrast, append every decoded property with the
argument-less `allocateProp()` and perform no duplicate check, so
decoding can produce stores with duplicate non-empty names. -/
theorem c3_nameUnique_preserved :
    (∀ (it : Item) (n : List Nat), NameUnique it.props →
      NameUnique (it.allocateProp n).1.props) ∧
    (∀ (t inc : Item), NameUnique t.props →
      NameUnique (t.merge inc).props) := by
  constructor
  · intro it n hnd
    unfold Item.allocateProp
    by_cases h : it.findPropIndex n < it.props.length
    · rw [if_pos h]
      exact hnd
    · rw [if_neg h]
      refine nameUnique_append ?_ hnd
      intro q hq hqn
      exact h (findIdxName_lt_of_mem hq hqn)
  · intro t inc hnd
    unfold Item.merge
    refine nameUnique_mergeProps inc.props _ ?_
    split <;> exact hnd

/-- Claim C3, counterexample to the claim as stated: decoding a byte
buffer that carries two properties both named `"a"` succeeds and yields
a store with two properties of the same non-empty name — byte-codec
decode does not enforce the uniqueness invariant. -/
theorem c3_decode_duplicates :
    Item.readFromByteString ⟨[], 0, 0, [], 0, 0, []⟩
        (encodeBytes c3DupItem) (fun _ => 1) = .ok c3DupItem ∧
      ¬ NameUnique c3DupItem.props := by
  constructor
  · exact rfl
  · intro h
    rw [c3DupItem, NameUnique, List.pairwise_cons] at h
    exact absurd (h.1 ⟨[97], .i32 6⟩ (by simp) rfl) (by simp)

/-- Claim C3, witness: find-or-allocate on a fresh name keeps a
concrete two-property unique store unique. -/
theorem c3_nameUnique_witness :
    NameUnique ((⟨[], 0, 0, [], 0, 0,
      [⟨[97], .i32 1⟩, ⟨[98], .i32 2⟩]⟩ : Item).allocateProp [99]).1.props :=
  c3_nameUnique_preserved.1
    ⟨[], 0, 0, [], 0, 0, [⟨[97], .i32 1⟩, ⟨[98], .i32 2⟩]⟩ [99]
    (by rw [NameUnique]; decide)

/-! ## Claim C4 -/

/-- Claim C4: the fixed-width `extract<T>` is bounds-checked before the
read and never consults memory beyond the buffer (its result does not
depend on the out-of-buffer valuation at all), but the NUL scan of
`extract<char**>` dereferences before its bounds check: on the 1-byte
buffer `{0x41}` the scan reads the byte at `bufferptrmax` — one past
the end — and its outcome depends on that out-of-bounds byte: a zero
there makes it succeed and consume two bytes of a one-byte buffer, a
non-zero byte there makes it fail only after the read. -/
theorem c4_scan_reads_past_end :
    extractCString [65] (fun _ => 0) 0 = .ok ([65], 2) ∧
    extractCString [65] (fun _ => 1) 0 = .error .badValue ∧
    (∀ (w o : Nat) (buf : List Nat) (oob1 oob2 : Nat → Nat),
      extractFixed w buf oob1 o = extractFixed w buf oob2 o) :=
  ⟨rfl, rfl, fun _ _ _ _ _ => rfl⟩

/-! ## Decoder congruence lemmas (version-field independence) -/

theorem extractFixed_val {buf : List Nat} (oob : Nat → Nat) {o w : Nat}
    (h : o + w ≤ buf.length) :
    extractFixed w buf oob o =
      .ok (fromBytes ((buf.drop o).take w), o + w) := by
  unfold extractFixed
  rw [if_neg (by omega)]

theorem extractFixed_ok_off {w : Nat} {buf : List Nat} {oob : Nat → Nat}
    {o v o' : Nat} (h : extractFixed w buf oob o = .ok (v, o')) :
    o' = o + w := by
  unfold extractFixed at h
  by_cases hb : o + w > buf.length
  · rw [if_pos hb] at h
    cases h
  · rw [if_neg hb] at h
    simp at h
    omega

theorem scanNulF_ok_ge : ∀ {buf : List Nat} {oob : Nat → Nat}
    {fuel p q : Nat}, scanNulF buf oob fuel p = .ok q → p ≤ q
  | _, _, 0, _, _, h => by cases h
  | buf, oob, fuel + 1, p, q, h => by
      unfold scanNulF at h
      by_cases h0 : byteAt buf oob p = 0
      · rw [if_pos h0] at h
        simp at h
        omega
      · rw [if_neg h0] at h
        by_cases h1 : p ≥ buf.length
        · rw [if_pos h1] at h
          cases h
        · rw [if_neg h1] at h
          have := scanNulF_ok_ge h
          omega

theorem scanNul_ok_ge {buf : List Nat} {oob : Nat → Nat} {p q : Nat}
    (h : scanNul buf oob p = .ok q) : p ≤ q := by
  unfold scanNul at h
  by_cases h1 : p < buf.length
  · rw [if_pos h1] at h
    exact scanNulF_ok_ge h
  · rw [if_neg h1] at h
    by_cases h2 : byteAt buf oob p = 0
    · rw [if_pos h2] at h
      simp at h
      omega
    · rw [if_neg h2] at h
      cases h

theorem extractCString_ok_off {buf : List Nat} {oob : Nat → Nat}
    {o : Nat} {s : List Nat} {o' : Nat}
    (h : extractCString buf oob o = .ok (s, o')) : o < o' := by
  unfold extractCString at h
  cases hs : scanNul buf oob o with
  | error e =>
      rw [hs] at h
      cases h
  | ok p =>
      rw [hs] at h
      simp at h
      have := scanNul_ok_ge hs
      omega

section Congr

variable {b1 b2 : List Nat} {oob : Nat → Nat}

theorem drop_congr (hl : b1.length = b2.length)
    (h10 : b1.drop 10 = b2.drop 10) {o : Nat} (ho : 10 ≤ o) :
    b1.drop o = b2.drop o := by
  have he : o = 10 + (o - 10) := by omega
  rw [he, ← List.drop_drop, ← List.drop_drop, h10]

theorem byteAt_congr (hl : b1.length = b2.length)
    (h10 : b1.drop 10 = b2.drop 10) {i : Nat} (hi : 10 ≤ i) :
    byteAt b1 oob i = byteAt b2 oob i := by
  unfold byteAt
  by_cases h : i < b1.length
  · have h2 : i < b2.length := by
      rw [← hl]
      exact h
    rw [dif_pos h, dif_pos h2]
    have hd := drop_congr hl h10 hi
    have hd2 : b1[i] :: b1.drop (i + 1) = b2[i] :: b2.drop (i + 1) := by
      rw [← List.drop_eq_getElem_cons h, ← List.drop_eq_getElem_cons h2]
      exact hd
    simp only [List.get_eq_getElem]
    exact (List.cons.inj hd2).1
  · rw [dif_neg h, dif_neg (fun hc => h (by rw [hl]; exact hc))]

theorem scanNulF_congr (hl : b1.length = b2.length)
    (h10 : b1.drop 10 = b2.drop 10) :
    ∀ (fuel : Nat) {p : Nat}, 10 ≤ p →
      scanNulF b1 oob fuel p = scanNulF b2 oob fuel p
  | 0, _, _ => rfl
  | fuel + 1, p, hp => by
      unfold scanNulF
      rw [byteAt_congr hl h10 hp, hl]
      split_ifs with h0 h1
      · rfl
      · rfl
      · exact scanNulF_congr hl h10 fuel (by omega)

theorem scanNul_congr (hl : b1.length = b2.length)
    (h10 : b1.drop 10 = b2.drop 10) {p : Nat} (hp : 10 ≤ p) :
    scanNul b1 oob p = scanNul b2 oob p := by
  unfold scanNul
  rw [hl, byteAt_congr hl h10 hp]
  split_ifs with h1 h2
  · exact scanNulF_congr hl h10 _ hp
  · rfl
  · rfl

theorem extractCString_congr (hl : b1.length = b2.length)
    (h10 : b1.drop 10 = b2.drop 10) {o : Nat} (ho : 10 ≤ o) :
    extractCString b1 oob o = extractCString b2 oob o := by
  unfold extractCString
  rw [scanNul_congr hl h10 ho]
  cases h : scanNul b2 oob o with
  | error e => rfl
  | ok p =>
      simp only []
      rw [drop_congr hl h10 ho]

theorem extractFixed_congr (hl : b1.length = b2.length)
    (h10 : b1.drop 10 = b2.drop 10) {w o : Nat} (ho : 10 ≤ o) :
    extractFixed w b1 oob o = extractFixed w b2 oob o := by
  unfold extractFixed
  rw [hl, drop_congr hl h10 ho]

theorem readProp_congr (hl : b1.length = b2.length)
    (h10 : b1.drop 10 = b2.drop 10) {o : Nat} (ho : 10 ≤ o) :
    readProp b1 oob o = readProp b2 oob o := by
  unfold readProp
  rw [extractFixed_congr hl h10 ho]
  cases h1 : extractFixed 2 b2 oob o with
  | error e => rfl
  | ok r1 =>
      obtain ⟨len0, o1⟩ := r1
      have ho1 : o1 = o + 2 := extractFixed_ok_off h1
      simp only []
      rw [extractFixed_congr hl h10 (by omega)]
      cases h2 : extractFixed 1 b2 oob o1 with
      | error e => rfl
      | ok r2 =>
          obtain ⟨tag, o2⟩ := r2
          have ho2 : o2 = o1 + 1 := extractFixed_ok_off h2
          simp only []
          rw [extractCString_congr hl h10 (by omega)]
          cases h3 : extractCString b2 oob o2 with
          | error e => rfl
          | ok r3 =>
              obtain ⟨nm, o3⟩ := r3
              have ho3 : o2 < o3 := extractCString_ok_off h3
              simp only []
              split_ifs
              · rw [extractFixed_congr hl h10 (by omega)]
              · rw [extractFixed_congr hl h10 (by omega)]
              · rw [extractFixed_congr hl h10 (by omega)]
              · rw [extractFixed_congr hl h10 (by omega)]
                cases h4 : extractFixed 8 b2 oob o3 with
                | error e => rfl
                | ok r4 =>
                    obtain ⟨av, o4⟩ := r4
                    have ho4 : o4 = o3 + 8 := extractFixed_ok_off h4
                    simp only []
                    rw [extractFixed_congr hl h10 (by omega)]
              · rw [extractCString_congr hl h10 (by omega)]
              · rfl
              · rfl

theorem readProp_ok_ge {buf : List Nat} {oob : Nat → Nat} {o : Nat}
    {p : MProp} {o' : Nat} (h : readProp buf oob o = .ok (p, o')) :
    o ≤ o' := by
  unfold readProp at h
  cases h1 : extractFixed 2 buf oob o with
  | error e =>
      rw [h1] at h
      cases h
  | ok r1 =>
      obtain ⟨len0, o1⟩ := r1
      rw [h1] at h
      simp only [] at h
      have ho1 : o1 = o + 2 := extractFixed_ok_off h1
      cases h2 : extractFixed 1 buf oob o1 with
      | error e =>
          rw [h2] at h
          cases h
      | ok r2 =>
          obtain ⟨tag, o2⟩ := r2
          rw [h2] at h
          simp only [] at h
          have ho2 : o2 = o1 + 1 := extractFixed_ok_off h2
          cases h3 : extractCString buf oob o2 with
          | error e =>
              rw [h3] at h
              cases h
          | ok r3 =>
              obtain ⟨nm, o3⟩ := r3
              rw [h3] at h
              simp only [] at h
              have ho3 : o2 < o3 := extractCString_ok_off h3
              split_ifs at h
              · cases h4 : extractFixed 4 buf oob o3 with
                | error e =>
                    rw [h4] at h
                    cases h
                | ok r4 =>
                    obtain ⟨v, o4⟩ := r4
                    rw [h4] at h
                    simp only [] at h
                    have := extractFixed_ok_off h4
                    simp at h
                    omega
              · cases h4 : extractFixed 8 buf oob o3 with
                | error e =>
                    rw [h4] at h
                    cases h
                | ok r4 =>
                    obtain ⟨v, o4⟩ := r4
                    rw [h4] at h
                    simp only [] at h
                    have := extractFixed_ok_off h4
                    simp at h
                    omega
              · cases h4 : extractFixed 8 buf oob o3 with
                | error e =>
                    rw [h4] at h
                    cases h
                | ok r4 =>
                    obtain ⟨v, o4⟩ := r4
                    rw [h4] at h
                    simp only [] at h
                    have := extractFixed_ok_off h4
                    simp at h
                    omega
              · cases h4 : extractFixed 8 buf oob o3 with
                | error e =>
                    rw [h4] at h
                    cases h
                | ok r4 =>
                    obtain ⟨av, o4⟩ := r4
                    rw [h4] at h
                    simp only [] at h
                    have ho4 : o4 = o3 + 8 := extractFixed_ok_off h4
                    cases h5 : extractFixed 8 buf oob o4 with
                    | error e =>
                        rw [h5] at h
                        cases h
                    | ok r5 =>
                        obtain ⟨bv, o5⟩ := r5
                        rw [h5] at h
                        simp only [] at h
                        have := extractFixed_ok_off h5
                        simp at h
                        omega
              · cases h4 : extractCString buf oob o3 with
                | error e =>
                    rw [h4] at h
                    cases h
                | ok r4 =>
                    obtain ⟨s, o4⟩ := r4
                    rw [h4] at h
                    simp only [] at h
                    have := extractCString_ok_off h4
                    simp at h
                    omega
              · cases h
                omega

theorem readProps_congr (hl : b1.length = b2.length)
    (h10 : b1.drop 10 = b2.drop 10) :
    ∀ (n : Nat) {o : Nat} (acc : List MProp), 10 ≤ o →
      readProps b1 oob n o acc = readProps b2 oob n o acc
  | 0, _, _, _ => rfl
  | n + 1, o, acc, ho => by
      unfold readProps
      rw [readProp_congr hl h10 ho]
      cases h1 : readProp b2 oob o with
      | error e => rfl
      | ok r =>
          obtain ⟨p, o1⟩ := r
          simp only []
          exact readProps_congr hl h10 n (acc ++ [p])
            (le_trans ho (readProp_ok_ge h1))

end Congr

theorem extractFixed_congr_slice {b1 b2 : List Nat} {oob : Nat → Nat}
    {w o : Nat} (hl : b1.length = b2.length)
    (hs : (b1.drop o).take w = (b2.drop o).take w) :
    extractFixed w b1 oob o = extractFixed w b2 oob o := by
  unfold extractFixed
  rw [hl, hs]

/-- Claim C10: the byte-string decoder never inspects the 2-byte
version field at offset 8: decoding is invariant under replacing those
two bytes by any other two bytes (no version is ever rejected), while
the parcel decoder rejects every version other than 0 with
`INVALID_OPERATION`. -/
theorem c10_version_ignored_byte_vs_parcel :
    (∀ (it0 : Item) (A m1 m2 B : List Nat) (oob : Nat → Nat),
      A.length = 8 → m1.length = 2 → m2.length = 2 →
      Item.readFromByteString it0 (A ++ m1 ++ B) oob =
        Item.readFromByteString it0 (A ++ m2 ++ B) oob) ∧
    (∀ (it : Item) (v : Nat) (rest : Parcel), v ≠ 0 →
      Item.readFromParcel it (PVal.i32 v :: rest) =
        .error .invalidOperation) := by
  constructor
  · intro it0 A m1 m2 B oob hA hm1 hm2
    have hl : (A ++ m1 ++ B).length = (A ++ m2 ++ B).length := by
      simp [hm1, hm2]
    have h10 : (A ++ m1 ++ B).drop 10 = (A ++ m2 ++ B).drop 10 := by
      have d1 : (A ++ m1 ++ B).drop 10 = B := by
        have hx : (A ++ m1).length = 10 := by simp [hA, hm1]
        rw [← hx, List.drop_left]
      have d2 : (A ++ m2 ++ B).drop 10 = B := by
        have hx : (A ++ m2).length = 10 := by simp [hA, hm2]
        rw [← hx, List.drop_left]
      rw [d1, d2]
    have hs0 : ((A ++ m1 ++ B).drop 0).take 4 =
        ((A ++ m2 ++ B).drop 0).take 4 := by
      simp only [List.drop_zero]
      rw [List.append_assoc A m1 B, List.append_assoc A m2 B,
          List.take_append_of_le_length (by rw [hA]; omega),
          List.take_append_of_le_length (by rw [hA]; omega)]
    have hs4 : ((A ++ m1 ++ B).drop 4).take 4 =
        ((A ++ m2 ++ B).drop 4).take 4 := by
      rw [List.append_assoc A m1 B, List.append_assoc A m2 B,
          List.drop_append_of_le_length (by rw [hA]; omega),
          List.drop_append_of_le_length (by rw [hA]; omega),
          List.take_append_of_le_length
            (by rw [List.length_drop, hA]),
          List.take_append_of_le_length
            (by rw [List.length_drop, hA])]
    unfold Item.readFromByteString
    rw [extractFixed_congr_slice hl hs0]
    cases h1 : extractFixed 4 (A ++ m2 ++ B) oob 0 with
    | error e => rfl
    | ok r1 =>
        obtain ⟨size, o1⟩ := r1
        have ho1 : o1 = 4 := by
          have := extractFixed_ok_off h1
          omega
        subst ho1
        simp only []
        rw [extractFixed_congr_slice hl hs4]
        cases h2 : extractFixed 4 (A ++ m2 ++ B) oob 4 with
        | error e => rfl
        | ok r2 =>
            obtain ⟨header_size, o2⟩ := r2
            have ho2 : o2 = 8 := by
              have := extractFixed_ok_off h2
              omega
            subst ho2
            simp only []
            by_cases hv : 8 + 2 > (A ++ m2 ++ B).length
            · have e1 : extractFixed 2 (A ++ m1 ++ B) oob 8 =
                  .error .badValue := by
                unfold extractFixed
                rw [if_pos (by rw [hl]; exact hv)]
              have e2 : extractFixed 2 (A ++ m2 ++ B) oob 8 =
                  .error .badValue := by
                unfold extractFixed
                rw [if_pos hv]
              rw [e1, e2]
            · have e1 := @extractFixed_val (A ++ m1 ++ B) oob 8 2
                (by rw [hl]; omega)
              have e2 := @extractFixed_val (A ++ m2 ++ B) oob 8 2
                (by omega)
              rw [e1, e2]
              simp only []
              rw [extractFixed_congr hl h10 (by omega)]
              cases h4 : extractFixed 2 (A ++ m2 ++ B) oob (8 + 2) with
              | error e => rfl
              | ok r4 =>
                  obtain ⟨key_size, o4⟩ := r4
                  have ho4 : o4 = 12 := by
                    have := extractFixed_ok_off h4
                    omega
                  subst ho4
                  simp only []
                  rw [extractCString_congr hl h10 (by omega)]
                  cases h5 : extractCString (A ++ m2 ++ B) oob 12 with
                  | error e => rfl
                  | ok r5 =>
                      obtain ⟨key, o5⟩ := r5
                      have ho5 : 12 < o5 := extractCString_ok_off h5
                      simp only []
                      rw [extractFixed_congr hl h10 (by omega)]
                      cases h6 : extractFixed 4 (A ++ m2 ++ B) oob o5 with
                      | error e => rfl
                      | ok r6 =>
                          obtain ⟨pid, o6⟩ := r6
                          have ho6 : o6 = o5 + 4 := extractFixed_ok_off h6
                          simp only []
                          rw [extractFixed_congr hl h10 (by omega)]
                          cases h7 : extractFixed 4 (A ++ m2 ++ B) oob o6 with
                          | error e => rfl
                          | ok r7 =>
                              obtain ⟨uid, o7⟩ := r7
                              have ho7 : o7 = o6 + 4 := extractFixed_ok_off h7
                              simp only []
                              rw [extractFixed_congr hl h10 (by omega)]
                              cases h8 : extractFixed 8 (A ++ m2 ++ B) oob o7 with
                              | error e => rfl
                              | ok r8 =>
                                  obtain ⟨timestamp, o8⟩ := r8
                                  have ho8 : o8 = o7 + 8 := extractFixed_ok_off h8
                                  simp only []
                                  rw [hl]
                                  split_ifs with hc1 hc2
                                  · rfl
                                  · rfl
                                  · have hhs : 10 ≤ header_size := by omega
                                    rw [extractFixed_congr hl h10 hhs]
                                    cases h9 : extractFixed 4 (A ++ m2 ++ B) oob header_size with
                                    | error e => rfl
                                    | ok r9 =>
                                        obtain ⟨propCount, o9⟩ := r9
                                        have ho9 : o9 = header_size + 4 :=
                                          extractFixed_ok_off h9
                                        simp only []
                                        rw [readProps_congr hl h10 propCount
                                          it0.props (by omega)]
  · intro it v rest hv
    unfold Item.readFromParcel
    have hr : readInt32 (PVal.i32 v :: rest) = .ok (v, rest) := rfl
    rw [hr]
    simp only []
    rw [if_neg hv]

theorem c10_version_witness :
    Item.readFromByteString ⟨[], 0, 0, [], 0, 0, []⟩
        ([0, 0, 0, 0, 0, 0, 0, 0] ++ [0, 0] ++ [9, 9]) (fun _ => 0) =
      Item.readFromByteString ⟨[], 0, 0, [], 0, 0, []⟩
        ([0, 0, 0, 0, 0, 0, 0, 0] ++ [7, 3] ++ [9, 9]) (fun _ => 0) ∧
    Item.readFromParcel ⟨[], 0, 0, [], 0, 0, []⟩ [PVal.i32 1] =
      .error .invalidOperation :=
  ⟨c10_version_ignored_byte_vs_parcel.1 ⟨[], 0, 0, [], 0, 0, []⟩
      [0, 0, 0, 0, 0, 0, 0, 0] [0, 0] [7, 3] [9, 9] (fun _ => 0)
      (by decide) (by decide) (by decide),
   c10_version_ignored_byte_vs_parcel.2 ⟨[], 0, 0, [], 0, 0, []⟩ 1 []
      (by decide)⟩

theorem extractFixed_ok_val {w : Nat} {buf : List Nat} {oob : Nat → Nat}
    {o v o' : Nat} (h : extractFixed w buf oob o = .ok (v, o')) :
    v = fromBytes ((buf.drop o).take w) ∧ o' = o + w := by
  unfold extractFixed at h
  by_cases hb : o + w > buf.length
  · rw [if_pos hb] at h
    cases h
  · rw [if_neg hb] at h
    cases h
    exact ⟨rfl, rfl⟩

theorem readFromByteString_reject (it0 : Item) {buf : List Nat}
    {oob : Nat → Nat}
    (hbad : fromBytes (buf.take 4) > buf.length ∨
      fromBytes ((buf.drop 4).take 4) > fromBytes (buf.take 4) ∨
      (∃ key o5, extractCString buf oob 12 = .ok (key, o5) ∧
        (key.length + 1 ≠ fromBytes ((buf.drop 10).take 2) ∨
         o5 + 16 > fromBytes ((buf.drop 4).take 4)))) :
    Item.readFromByteString it0 buf oob = .error .invalidOperation := by
  unfold Item.readFromByteString
  cases h1 : extractFixed 4 buf oob 0 with
  | error e => rfl
  | ok r1 =>
      obtain ⟨size, o1⟩ := r1
      obtain ⟨hv1, ho1⟩ := extractFixed_ok_val h1
      rw [List.drop_zero] at hv1
      simp only []
      cases h2 : extractFixed 4 buf oob o1 with
      | error e => rfl
      | ok r2 =>
          obtain ⟨header_size, o2⟩ := r2
          obtain ⟨hv2, ho2⟩ := extractFixed_ok_val h2
          rw [ho1] at hv2 ho2
          norm_num at hv2 ho2
          simp only []
          cases h3 : extractFixed 2 buf oob o2 with
          | error e => rfl
          | ok r3 =>
              obtain ⟨ver, o3⟩ := r3
              have ho3 : o3 = 10 := by
                have := extractFixed_ok_off h3
                omega
              simp only []
              cases h4 : extractFixed 2 buf oob o3 with
              | error e => rfl
              | ok r4 =>
                  obtain ⟨key_size, o4⟩ := r4
                  obtain ⟨hv4, ho4⟩ := extractFixed_ok_val h4
                  rw [ho3] at hv4 ho4
                  simp only []
                  rw [show o4 = 12 by omega]
                  cases h5 : extractCString buf oob 12 with
                  | error e => rfl
                  | ok r5 =>
                      obtain ⟨key, o5⟩ := r5
                      simp only []
                      cases h6 : extractFixed 4 buf oob o5 with
                      | error e => rfl
                      | ok r6 =>
                          obtain ⟨pid, o6⟩ := r6
                          have ho6 : o6 = o5 + 4 := extractFixed_ok_off h6
                          simp only []
                          cases h7 : extractFixed 4 buf oob o6 with
                          | error e => rfl
                          | ok r7 =>
                              obtain ⟨uid, o7⟩ := r7
                              have ho7 : o7 = o6 + 4 := extractFixed_ok_off h7
                              simp only []
                              cases h8 : extractFixed 8 buf oob o7 with
                              | error e => rfl
                              | ok r8 =>
                                  obtain ⟨ts, o8⟩ := r8
                                  have ho8 : o8 = o7 + 8 := extractFixed_ok_off h8
                                  simp only []
                                  rcases hbad with hb | hb | ⟨key2, o52, hk2, hb⟩
                                  · rw [if_pos (Or.inl (by omega))]
                                  · rw [if_pos (Or.inr (Or.inr (by omega)))]
                                  · rw [h5] at hk2
                                    cases hk2
                                    rcases hb with hb | hb
                                    · rw [if_pos (Or.inr (Or.inl (by omega)))]
                                    · by_cases hc1 : size > buf.length ∨
                                        key.length + 1 ≠ key_size ∨
                                        header_size > size
                                      · rw [if_pos hc1]
                                      · rw [if_neg hc1,
                                          if_pos (show o8 > header_size by omega)]

theorem readFromByteString_padEncode (it it0 : Item) (oob : Nat → Nat)
    {size : Nat} (pad : List Nat) (hwfm : it.wfm)
    (hnn : ∀ p ∈ it.props, p.value ≠ .none)
    (h : it.byteStringSizeE = .ok size)
    (hpad : size + pad.length < 2 ^ 32) :
    Item.readFromByteString it0 (padEncodeBytes it size pad) oob =
      .ok { it0 with key := it.key, pid := it.pid, uid := it.uid,
                     timestamp := it.timestamp,
                     props := it0.props ++ it.props } := by
  obtain ⟨hkey, hpid, huid, hts, hcnt, hpwf⟩ := hwfm
  by_cases hk : it.key.length + 1 > 65535
  · rw [Item.byteStringSizeE, if_pos hk] at h
    exact absurd h (by simp)
  rw [Item.byteStringSizeE, if_neg hk] at h
  have hinit : it.headerSize + 4 < 2 ^ 32 := by
    simp [Item.headerSize]
    omega
  obtain ⟨hsz, hps, hlt⟩ := accumSize_ok h hinit
  rw [Item.headerSize] at hsz
  have hlen : (padEncodeBytes it size pad).length = size + pad.length := by
    simp [padEncodeBytes, toBytes_length]
    omega
  have h232 : (256 : Nat) ^ 4 = 2 ^ 32 := by norm_num
  have h216 : (256 : Nat) ^ 2 = 2 ^ 16 := by norm_num
  have h264 : (256 : Nat) ^ 8 = 2 ^ 64 := by norm_num
  have hB : (padEncodeBytes it size pad).drop 0 =
      toBytes 4 (size + pad.length) ++ (toBytes 4 (it.headerSize + pad.length) ++
        (toBytes 2 0 ++ (toBytes 2 (it.key.length + 1) ++ (it.key ++ (0 ::
          (toBytes 4 it.pid ++ (toBytes 4 it.uid ++ (toBytes 8 it.timestamp ++
            (pad ++ (toBytes 4 it.props.length ++ propsBytes it.props)))))))))) := by
    simp [padEncodeBytes, List.append_assoc]
  obtain ⟨e1, d1⟩ := extractFixed_of_drop oob (w := 4) (by omega) hB
  obtain ⟨e2, d2⟩ := extractFixed_of_drop oob (w := 4) (by omega) d1
  obtain ⟨e3, d3⟩ := extractFixed_of_drop oob (w := 2) (by omega) d2
  obtain ⟨e4, d4⟩ := extractFixed_of_drop oob (w := 2) (by omega) d3
  norm_num at e1 e2 e3 e4 d1 d2 d3 d4
  norm_num at hpid huid hts hcnt hlt hpad
  obtain ⟨e5, d5⟩ := extractCString_of_drop oob d4 hkey
  obtain ⟨e6, d6⟩ := extractFixed_of_drop oob (w := 4) (by omega) d5
  obtain ⟨e7, d7⟩ := extractFixed_of_drop oob (w := 4) (by omega) d6
  obtain ⟨e8, d8⟩ := extractFixed_of_drop oob (w := 8) (by omega) d7
  norm_num at e5 e6 e7 e8 d5 d6 d7 d8
  rw [Nat.mod_eq_of_lt (by omega : size + pad.length < 4294967296)] at e1
  rw [Nat.mod_eq_of_lt (by rw [Item.headerSize]; omega :
    it.headerSize + pad.length < 4294967296)] at e2
  rw [Nat.mod_eq_of_lt (by omega : it.key.length + 1 < 65536)] at e4
  rw [Nat.mod_eq_of_lt (by omega : it.pid < 4294967296)] at e6
  rw [Nat.mod_eq_of_lt (by omega : it.uid < 4294967296)] at e7
  rw [Nat.mod_eq_of_lt (by omega : it.timestamp < 18446744073709551616)] at e8
  have hoff : 12 + it.key.length + 1 + 4 + 4 + 8 = it.headerSize := by
    rw [Item.headerSize]
    omega
  have d8' : (padEncodeBytes it size pad).drop (it.headerSize + pad.length) =
      toBytes 4 it.props.length ++ (propsBytes it.props ++ []) := by
    have hdp : (padEncodeBytes it size pad).drop it.headerSize =
        pad ++ (toBytes 4 it.props.length ++ propsBytes it.props) := by
      rw [← hoff]
      simpa using d8
    have h2 := congrArg (List.drop pad.length) hdp
    rw [List.drop_drop, List.drop_left] at h2
    simpa using h2
  obtain ⟨e9, d9⟩ := extractFixed_of_drop oob (w := 4) (by omega) d8'
  norm_num at e9 d9
  rw [Nat.mod_eq_of_lt (by omega : it.props.length < 4294967296)] at e9
  have e10 := readProps_of_drop oob it.props (it.headerSize + pad.length + 4)
    it0.props [] (by simpa using d9) (fun p hp => ⟨hpwf p hp, hnn p hp⟩)
  rw [List.drop_zero] at hB
  unfold Item.readFromByteString
  rw [e1]
  simp only []
  rw [e2]
  simp only []
  rw [e3]
  simp only []
  rw [e4]
  simp only []
  rw [e5]
  simp only []
  rw [e6]
  simp only []
  rw [e7]
  simp only []
  rw [e8]
  simp only []
  rw [if_neg (by
    push_neg
    refine ⟨by omega, rfl, by rw [Item.headerSize]; omega⟩)]
  rw [if_neg (by rw [Item.headerSize]; omega)]
  rw [e9]
  simp only []
  rw [e10]

/-- Claim C5: the byte-string decoder rejects with `INVALID_OPERATION`
any buffer whose declared total size exceeds the buffer length, whose
key-length field disagrees with the parsed key's length plus one, or
whose declared header size exceeds the declared total size; and after
the fixed header (ending at offset `keyEnd + 16`) a read offset greater
than the declared header size is rejected, while a smaller offset makes
the decoder skip forward to the header size: decoding an encoding
padded between the fixed header and the property count (with total and
header sizes enlarged by the padding) succeeds with the same record as
the unpadded encoding. -/
theorem c5_header_checks_and_skip :
    (∀ (it0 : Item) (buf : List Nat) (oob : Nat → Nat),
      fromBytes (buf.take 4) > buf.length →
      Item.readFromByteString it0 buf oob = .error .invalidOperation) ∧
    (∀ (it0 : Item) (buf key : List Nat) (oob : Nat → Nat) (o5 : Nat),
      extractCString buf oob 12 = .ok (key, o5) →
      key.length + 1 ≠ fromBytes ((buf.drop 10).take 2) →
      Item.readFromByteString it0 buf oob = .error .invalidOperation) ∧
    (∀ (it0 : Item) (buf : List Nat) (oob : Nat → Nat),
      fromBytes ((buf.drop 4).take 4) > fromBytes (buf.take 4) →
      Item.readFromByteString it0 buf oob = .error .invalidOperation) ∧
    (∀ (it0 : Item) (buf key : List Nat) (oob : Nat → Nat) (o5 : Nat),
      extractCString buf oob 12 = .ok (key, o5) →
      o5 + 16 > fromBytes ((buf.drop 4).take 4) →
      Item.readFromByteString it0 buf oob = .error .invalidOperation) ∧
    (∀ (it it0 : Item) (oob : Nat → Nat) (size : Nat) (pad : List Nat),
      it.wfm → (∀ p ∈ it.props, p.value ≠ .none) →
      it.byteStringSizeE = .ok size → size + pad.length < 2 ^ 32 →
      Item.readFromByteString it0 (padEncodeBytes it size pad) oob =
        .ok { it0 with key := it.key, pid := it.pid, uid := it.uid,
                       timestamp := it.timestamp,
                       props := it0.props ++ it.props }) := by
  refine ⟨?_, ?_, ?_, ?_, ?_⟩
  · intro it0 buf oob h
    exact readFromByteString_reject it0 (Or.inl h)
  · intro it0 buf key oob o5 hkk hmis
    exact readFromByteString_reject it0
      (Or.inr (Or.inr ⟨key, o5, hkk, Or.inl hmis⟩))
  · intro it0 buf oob h
    exact readFromByteString_reject it0 (Or.inr (Or.inl h))
  · intro it0 buf key oob o5 hkk hoff
    exact readFromByteString_reject it0
      (Or.inr (Or.inr ⟨key, o5, hkk, Or.inr hoff⟩))
  · intro it it0 oob size pad hwfm hnn h hpad
    exact readFromByteString_padEncode it it0 oob pad hwfm hnn h hpad

theorem c5_checks_witness :
    Item.readFromByteString ⟨[], 0, 0, [], 0, 0, []⟩ [255, 0, 0, 0]
      (fun _ => 0) = .error .invalidOperation ∧
    Item.readFromByteString ⟨[], 0, 0, [], 0, 0, []⟩
      [0, 0, 0, 0, 0, 0, 0, 0, 0, 0, 0, 0, 97, 0, 0, 0]
      (fun _ => 0) = .error .invalidOperation ∧
    Item.readFromByteString ⟨[], 0, 0, [], 0, 0, []⟩ [0, 0, 0, 0, 1, 0, 0, 0]
      (fun _ => 0) = .error .invalidOperation ∧
    Item.readFromByteString ⟨[], 0, 0, [], 0, 0, []⟩
      [0, 0, 0, 0, 0, 0, 0, 0, 0, 0, 2, 0, 97, 0, 0, 0]
      (fun _ => 0) = .error .invalidOperation ∧
    Item.readFromByteString ⟨[], 0, 0, [], 0, 0, []⟩
      (padEncodeBytes ⟨[107], 1, 2, [], 0, 3, [⟨[97], Val.i32 5⟩]⟩ 43
        [0, 0, 0, 0]) (fun _ => 0) =
      .ok ⟨[107], 1, 2, [], 0, 3, [⟨[97], Val.i32 5⟩]⟩ :=
  ⟨c5_header_checks_and_skip.1 ⟨[], 0, 0, [], 0, 0, []⟩ [255, 0, 0, 0]
      (fun _ => 0) (by decide),
   c5_header_checks_and_skip.2.1 ⟨[], 0, 0, [], 0, 0, []⟩
      [0, 0, 0, 0, 0, 0, 0, 0, 0, 0, 0, 0, 97, 0, 0, 0] [97]
      (fun _ => 0) 14 (by decide) (by decide),
   c5_header_checks_and_skip.2.2.1 ⟨[], 0, 0, [], 0, 0, []⟩
      [0, 0, 0, 0, 1, 0, 0, 0] (fun _ => 0) (by decide),
   c5_header_checks_and_skip.2.2.2.1 ⟨[], 0, 0, [], 0, 0, []⟩
      [0, 0, 0, 0, 0, 0, 0, 0, 0, 0, 2, 0, 97, 0, 0, 0] [97]
      (fun _ => 0) 14 (by decide) (by decide),
   c5_header_checks_and_skip.2.2.2.2 ⟨[107], 1, 2, [], 0, 3, [⟨[97], Val.i32 5⟩]⟩
      ⟨[], 0, 0, [], 0, 0, []⟩ (fun _ => 0) 43 [0, 0, 0, 0]
      (by decide) (by decide) (by decide) (by decide)⟩

end MediaMetrics
